import Mathlib

/-!
# Verification of the ship-routing core against its specification

This file gives a shallow embedding of the routing core of the repository
(`route/src/lib.rs`, `extract/src/main.rs`, `create_shortcuts/src/main.rs`)
and proves or refutes the frozen specification claims.

Modelling conventions:
* Rust `u32` values are modelled by `Nat`, and every `u32` addition the
  search code performs is modelled with an explicit `% 2^32`, the wrapping
  semantics of release-mode Rust (debug mode panics instead; either way the
  program does not compute the unbounded sum).  The correctness theorems
  carry explicit no-overflow hypotheses (`2 * edgeSum g < 2^32`, and for the
  heuristic searches a bound on the heuristic), under which every sum the
  algorithm forms is shown to stay below `2^32` — via the invariant that
  every stored distance is the cost of a vertex-simple relaxation walk and
  hence at most the sum of all edge weights.  Outside those hypotheses the
  wrapped and unbounded models genuinely diverge, and so does the program
  from the specification (see the overflow counterexample).
* Rust `Vec<u32>` scratch buffers are modelled by total functions
  `Nat → Nat` together with the allocated length `len`; `reset` overwrites
  every allocated cell with the sentinel, which corresponds to the constant
  function.
* `BinaryHeap<HeapNode>` is modelled by a list together with a `pop` that
  removes a maximal element with respect to the derived total order, which
  is the contract of `BinaryHeap::pop` (the order defined by `HeapNode::cmp`
  is total and antisymmetric, so the popped value is unique).
* `while` loops become fuel-indexed recursions returning `Option`;
  `none` means the fuel was exhausted.  For the loops that terminate we
  prove that the chosen fuel suffices.
* Floating-point computations (`calculate_distance`, `get_lon`, `get_lat`,
  `transform_lon`) are not modelled bit-for-bit: where a claim depends only
  on the *comparisons* the code performs, the floating-point quantity is
  abstracted as a function parameter (the heuristic `h` of `a_star`, the
  node-distance function of `find_nearest_node`), and where a claim is about
  exact integer or rational arithmetic the embedding uses `Int`/`ℚ`.
-/

set_option maxHeartbeats 1000000

namespace ShipRouting

/-- `u32::MAX`, the "unreached" sentinel of the Rust code. -/
def U32MAX : Nat := 4294967295

/-- `2^32`: the modulus of wrapping `u32` addition. -/
def U32MOD : Nat := 4294967296

/-- `route::Edge`: one CSR adjacency entry. -/
structure Edge where
  destination : Nat
  distance : Nat
deriving DecidableEq, Repr

/-- `route::Graph`: CSR adjacency with per-node shortcut-rectangle membership.
`offsets[i] = (offset into edges, Some rect-id if node i is strictly inside
shortcut rectangle rect-id)`. -/
structure Graph where
  offsets : List (Nat × Option Nat)
  edges : List Edge
  raster_columns_count : Nat
  raster_rows_count : Nat
  shortcut_rectangles : List (Nat × Nat × Nat × Nat)
deriving DecidableEq, Repr

/-- Number of nodes: the offsets array has one sentinel entry at the end. -/
def Graph.nodeCount (g : Graph) : Nat := g.offsets.length - 1

/-- The offset component `offsets[i].0`. -/
def Graph.offAt (g : Graph) (i : Nat) : Nat := (g.offsets.getD i (0, none)).1

/-- The rectangle-membership component `offsets[i].1`. -/
def Graph.rectAt (g : Graph) (i : Nat) : Option Nat := (g.offsets.getD i (0, none)).2

/-- The adjacency list of node `u`: `edges[offsets[u].0 .. offsets[u+1].0]`,
exactly the index range iterated by every search loop. -/
def Graph.outEdges (g : Graph) (u : Nat) : List Edge :=
  (List.range' (g.offAt u) (g.offAt (u+1) - g.offAt u)).map (fun k => g.edges.getD k ⟨0, 0⟩)

/-- `is_water` as tested by `find_nearest_node` and `create_shortcuts::is_water`:
the full tuples `offsets[i]` and `offsets[i+1]` are compared. -/
def Graph.isWater (g : Graph) (i : Nat) : Bool :=
  g.offsets.getD i (0, none) ≠ g.offsets.getD (i+1) (0, none)

/-- CSR integrity, as assumed by the spec (§3):
nonempty offsets, monotone offsets, final offset equal to the edge count,
and every destination a valid node index. -/
def ValidGraph (g : Graph) : Prop :=
  1 ≤ g.offsets.length ∧
  List.Chain' (· ≤ ·) (g.offsets.map Prod.fst) ∧
  g.offAt (g.offsets.length - 1) = g.edges.length ∧
  ∀ e ∈ g.edges, e.destination < g.nodeCount

/-- Executable check of the monotone-offsets conjunct. -/
def chainLeB : List Nat → Bool
  | [] => true
  | [_] => true
  | a :: b :: l => a ≤ b && chainLeB (b :: l)

def chainLeB_iff : ∀ l : List Nat, (chainLeB l = true ↔ List.Chain' (· ≤ ·) l) := by
  intro l
  induction l with
  | nil => simp [chainLeB]
  | cons a l ih =>
    cases l with
    | nil => simp [chainLeB]
    | cons b l' => simp [chainLeB, List.chain'_cons, ih]

instance (g : Graph) : Decidable (ValidGraph g) :=
  decidable_of_iff (1 ≤ g.offsets.length ∧
    chainLeB (g.offsets.map Prod.fst) = true ∧
    g.offAt (g.offsets.length - 1) = g.edges.length ∧
    ∀ e ∈ g.edges, e.destination < g.nodeCount)
    (by unfold ValidGraph; rw [chainLeB_iff])

/-- A walk from `a` to `b` of total cost `c` along CSR edges. -/
inductive Walk (g : Graph) : Nat → Nat → Nat → Prop
| refl (a : Nat) : Walk g a a 0
| cons {u v b w c} (he : Edge.mk v w ∈ g.outEdges u) (hw : Walk g v b c) :
    Walk g u b (w + c)

/-- There is some walk from `a` to `b`. -/
def Reachable (g : Graph) (a b : Nat) : Prop := ∃ c, Walk g a b c

/-- The sum of all edge weights of the CSR graph. -/
def edgeSum (g : Graph) : Nat := (g.edges.map (fun e => e.distance)).sum

/-- The sum of the weights of `u`'s adjacency list. -/
def sumOut (g : Graph) (u : Nat) : Nat :=
  ((g.outEdges u).map (fun e => e.distance)).sum

/-- A vertex-simple walk from `s` whose every prefix cost dominates the
current tentative distance of the prefix's endpoint (`vs` lists the visited
vertices, most recent first, so it never repeats).  This is the shape of the
walks the relaxation loop actually builds: the strict improvement guard
forbids re-entering a vertex of the walk, which bounds every stored distance
by `edgeSum`. -/
inductive SWalk (g : Graph) (dist : Nat → Nat) (s : Nat) : Nat → Nat → List Nat → Prop
| refl (h0 : dist s = 0) : SWalk g dist s s 0 [s]
| snoc {v c : Nat} {vs : List Nat} {e : Edge} (hp : SWalk g dist s v c vs)
    (he : e ∈ g.outEdges v) (hb : dist e.destination ≤ c + e.distance)
    (hnm : e.destination ∉ vs) :
    SWalk g dist s e.destination (c + e.distance) (e.destination :: vs)

/-- `d` is attained by a walk from `a` to `b` and no walk is cheaper:
the specification's "length of a shortest path". -/
def IsShortestDistance (g : Graph) (a b d : Nat) : Prop :=
  Walk g a b d ∧ ∀ c, Walk g a b c → d ≤ c

/-- `route::HeapNode`. -/
structure HeapNode where
  id : Nat
  distance : Nat
deriving DecidableEq, Repr

/-- `HeapNode::cmp`: reversed on distance (max-heap pops the smallest
distance), then forward on id. -/
def HeapNode.cmp (a b : HeapNode) : Ordering :=
  (compare b.distance a.distance).then (compare a.id b.id)

/-- `a` is strictly greater than `b` in the heap order. -/
def heapGtb (a b : HeapNode) : Bool := HeapNode.cmp a b == Ordering.gt

/-- The maximal element of the heap contents (the element `BinaryHeap::pop`
returns), scanning left to right. -/
def heapMax : List HeapNode → Option HeapNode
| [] => none
| x :: xs => some (xs.foldl (fun acc y => if heapGtb y acc then y else acc) x)

/-- `BinaryHeap::pop`: remove and return a maximal element. -/
def heapPop (q : List HeapNode) : Option (HeapNode × List HeapNode) :=
  match heapMax q with
  | none => none
  | some m => some (m, q.erase m)

/-- Pointwise update of a scratch buffer. -/
def upd (f : Nat → Nat) (i v : Nat) : Nat → Nat := fun j => if j = i then v else f j

/-- `route::AlgorithmState`: the reusable scratch state. `len` is the
allocated length of each of the four buffers. -/
structure AlgorithmState where
  distances : Nat → Nat
  parent_nodes : Nat → Nat
  queue : List HeapNode
  distances2 : Nat → Nat
  parent_nodes2 : Nat → Nat
  queue2 : List HeapNode
  len : Nat

/-- `AlgorithmState::new`. -/
def AlgorithmState.new (node_count : Nat) : AlgorithmState :=
  ⟨fun _ => U32MAX, fun _ => U32MAX, [], fun _ => U32MAX, fun _ => U32MAX, [], node_count⟩

/-- `AlgorithmState::reset`: every allocated distance and parent cell is
overwritten with the sentinel and both queues are cleared. -/
def AlgorithmState.reset (st : AlgorithmState) : AlgorithmState :=
  ⟨fun _ => U32MAX, fun _ => U32MAX, [], fun _ => U32MAX, fun _ => U32MAX, [], st.len⟩

/-- `route::PathResult`. -/
structure PathResult where
  path : Option (List Nat)
  distance : Option Nat
  heap_pops : Nat
deriving DecidableEq, Repr

/-- The path-reconstruction loop `while node != start { nodes.push(node);
node = parent_nodes[node]; } nodes.push(start)`, fuel-bounded: `none` models
the Rust loop never reaching `start` (which would run off the arrays). -/
def buildPath (parent : Nat → Nat) (start : Nat) : Nat → Nat → Option (List Nat)
| 0, _ => none
| fuel+1, node =>
  if node = start then some [start]
  else (buildPath parent start fuel (parent node)).map (fun l => node :: l)

/-- One relaxation of `a_star`: on improvement, set parent and distance and
push the successor keyed by `g-value + h(successor)`.  Both `u32` additions
wrap modulo `2^32`. -/
def relaxA (h : Nat → Nat) (u : Nat)
    (s : (Nat → Nat) × (Nat → Nat) × List HeapNode) (e : Edge) :
    (Nat → Nat) × (Nat → Nat) × List HeapNode :=
  let nd := (s.1 u + e.distance) % U32MOD
  if nd < s.1 e.destination then
    (upd s.1 e.destination nd, upd s.2.1 e.destination u,
      ⟨e.destination, (nd + h e.destination) % U32MOD⟩ :: s.2.2)
  else s

/-- The main loop of `Graph::a_star`, fuel-indexed.  `bp` bounds the path
reconstruction. -/
def aStarLoop (g : Graph) (start target : Nat) (h : Nat → Nat) (bp : Nat) :
    Nat → (Nat → Nat) → (Nat → Nat) → List HeapNode → Nat → Option PathResult
| 0, _, _, _, _ => none
| fuel+1, dist, parent, queue, pops =>
  match heapPop queue with
  | none => some ⟨none, none, pops⟩
  | some (m, rest) =>
    if m.id = target then
      some ⟨buildPath parent start bp target, some (dist target), pops + 1⟩
    else
      let t := (g.outEdges m.id).foldl (relaxA h m.id) (dist, parent, rest)
      aStarLoop g start target h bp fuel t.1 t.2.1 t.2.2 (pops + 1)

/-- One relaxation of `Graph::dijkstra`: push keyed by the new distance,
then set distance and parent (same state effect as `relaxA` with `h = 0`).
The `u32` addition wraps modulo `2^32`. -/
def relaxD (u : Nat)
    (s : (Nat → Nat) × (Nat → Nat) × List HeapNode) (e : Edge) :
    (Nat → Nat) × (Nat → Nat) × List HeapNode :=
  let nd := (s.1 u + e.distance) % U32MOD
  if nd < s.1 e.destination then
    (upd s.1 e.destination nd, upd s.2.1 e.destination u,
      ⟨e.destination, nd⟩ :: s.2.2)
  else s

/-- The main loop of `Graph::dijkstra`, fuel-indexed. -/
def dijkstraLoop (g : Graph) (start target : Nat) (bp : Nat) :
    Nat → (Nat → Nat) → (Nat → Nat) → List HeapNode → Nat → Option PathResult
| 0, _, _, _, _ => none
| fuel+1, dist, parent, queue, pops =>
  match heapPop queue with
  | none => some ⟨none, none, pops⟩
  | some (m, rest) =>
    if m.id = target then
      some ⟨buildPath parent start bp target, some (dist target), pops + 1⟩
    else
      let t := (g.outEdges m.id).foldl (relaxD m.id) (dist, parent, rest)
      dijkstraLoop g start target bp fuel t.1 t.2.1 t.2.2 (pops + 1)

/-- Fuel that provably suffices for the single-sided search loops. -/
def searchFuel (g : Graph) : Nat := g.nodeCount * U32MAX + 2

/-- `Graph::dijkstra`: reset the state, seed the source, run the loop. -/
def Graph.dijkstra (g : Graph) (start target : Nat) (st : AlgorithmState) :
    Option PathResult :=
  let st0 := st.reset
  dijkstraLoop g start target (g.nodeCount + 1) (searchFuel g)
    (upd st0.distances start 0) st0.parent_nodes [⟨start, 0⟩] 0

/-- `Graph::a_star`; the heuristic `h v` stands for the floating-point
`calculate_distance` from `v` to the target, abstracted as a parameter. -/
def Graph.a_star (g : Graph) (start target : Nat) (h : Nat → Nat)
    (st : AlgorithmState) : Option PathResult :=
  let st0 := st.reset
  aStarLoop g start target h (g.nodeCount + 1) (searchFuel g)
    (upd st0.distances start 0) st0.parent_nodes [⟨start, 0⟩] 0

/-- `Graph::is_node_inside_rect`: strictly inside (borders excluded). -/
def Graph.isNodeInsideRect (g : Graph) (node : Nat)
    (rect : Nat × Nat × Nat × Nat) : Bool :=
  decide (rect.1 < node % g.raster_columns_count) &&
  decide (rect.2.1 < node / g.raster_columns_count) &&
  decide (node % g.raster_columns_count < rect.2.2.1) &&
  decide (node / g.raster_columns_count < rect.2.2.2)

/-- The rectangle id assigned to `node` by the pre-loop scan of
`shortcut_a_star` (last matching rectangle, else `rects.len()`). -/
def Graph.rectOf (g : Graph) (node : Nat) : Nat :=
  (List.range g.shortcut_rectangles.length).foldl
    (fun acc i =>
      if g.isNodeInsideRect node (g.shortcut_rectangles.getD i (0, 0, 0, 0)) then i
      else acc)
    g.shortcut_rectangles.length

/-- One relaxation of `shortcut_a_star`: inside the improvement branch the
successor is skipped when it lies strictly inside a shortcut rectangle that
contains neither endpoint. -/
def relaxS (g : Graph) (h : Nat → Nat) (startRect endRect : Nat) (u : Nat)
    (s : (Nat → Nat) × (Nat → Nat) × List HeapNode) (e : Edge) :
    (Nat → Nat) × (Nat → Nat) × List HeapNode :=
  let nd := (s.1 u + e.distance) % U32MOD
  if nd < s.1 e.destination then
    match g.rectAt e.destination with
    | some r =>
      if r ≠ startRect ∧ r ≠ endRect then s
      else
        (upd s.1 e.destination nd, upd s.2.1 e.destination u,
          ⟨e.destination, (nd + h e.destination) % U32MOD⟩ :: s.2.2)
    | none =>
      (upd s.1 e.destination nd, upd s.2.1 e.destination u,
        ⟨e.destination, (nd + h e.destination) % U32MOD⟩ :: s.2.2)
  else s

/-- The main loop of `Graph::shortcut_a_star`, fuel-indexed. -/
def shortcutLoop (g : Graph) (start target : Nat) (h : Nat → Nat)
    (startRect endRect : Nat) (bp : Nat) :
    Nat → (Nat → Nat) → (Nat → Nat) → List HeapNode → Nat → Option PathResult
| 0, _, _, _, _ => none
| fuel+1, dist, parent, queue, pops =>
  match heapPop queue with
  | none => some ⟨none, none, pops⟩
  | some (m, rest) =>
    if m.id = target then
      some ⟨buildPath parent start bp target, some (dist target), pops + 1⟩
    else
      let t := (g.outEdges m.id).foldl (relaxS g h startRect endRect m.id) (dist, parent, rest)
      shortcutLoop g start target h startRect endRect bp fuel t.1 t.2.1 t.2.2 (pops + 1)

/-- `Graph::shortcut_a_star`. -/
def Graph.shortcut_a_star (g : Graph) (start target : Nat) (h : Nat → Nat)
    (st : AlgorithmState) : Option PathResult :=
  let st0 := st.reset
  shortcutLoop g start target h (g.rectOf start) (g.rectOf target)
    (g.nodeCount + 1) (searchFuel g)
    (upd st0.distances start 0) st0.parent_nodes [⟨start, 0⟩] 0

/-- State of the forward relaxation of `bi_dijkstra`: distances, parents,
queue, best meeting distance, meeting node. -/
def relaxBF (u : Nat) (dist2 : Nat → Nat)
    (s : (Nat → Nat) × (Nat → Nat) × List HeapNode × Nat × Nat) (e : Edge) :
    (Nat → Nat) × (Nat → Nat) × List HeapNode × Nat × Nat :=
  let nd := (s.1 u + e.distance) % U32MOD
  if nd < s.1 e.destination then
    let dist' := upd s.1 e.destination nd
    let parent' := upd s.2.1 e.destination u
    let queue' := (⟨e.destination, nd⟩ : HeapNode) :: s.2.2.1
    if dist2 e.destination ≠ U32MAX then
      let d := (s.1 u + e.distance + dist2 e.destination) % U32MOD
      if d < s.2.2.2.1 then (dist', parent', queue', d, e.destination)
      else (dist', parent', queue', s.2.2.2.1, s.2.2.2.2)
    else (dist', parent', queue', s.2.2.2.1, s.2.2.2.2)
  else s

/-- State of the backward relaxation of `bi_dijkstra`; `dist` is the
forward distance array as left by the forward relaxation. -/
def relaxBB (u : Nat) (dist : Nat → Nat)
    (s : (Nat → Nat) × (Nat → Nat) × List HeapNode × Nat × Nat) (e : Edge) :
    (Nat → Nat) × (Nat → Nat) × List HeapNode × Nat × Nat :=
  let nd := (s.1 u + e.distance) % U32MOD
  if nd < s.1 e.destination then
    let dist2' := upd s.1 e.destination nd
    let parent2' := upd s.2.1 e.destination u
    let queue2' := (⟨e.destination, nd⟩ : HeapNode) :: s.2.2.1
    if dist e.destination ≠ U32MAX then
      let d := (dist e.destination + e.distance + s.1 u) % U32MOD
      if d < s.2.2.2.1 then (dist2', parent2', queue2', d, e.destination)
      else (dist2', parent2', queue2', s.2.2.2.1, s.2.2.2.2)
    else (dist2', parent2', queue2', s.2.2.2.1, s.2.2.2.2)
  else s

/-- Path reconstruction of `bi_dijkstra`:
`reverse (middle → target via parent2) ++ (parent middle → start via parent)`. -/
def biPath (parent parent2 : Nat → Nat) (start target mid bp : Nat) :
    Option (List Nat) :=
  match buildPath parent2 target bp mid with
  | none => none
  | some l1 =>
    match buildPath parent start bp (parent mid) with
    | none => none
    | some l2 => some (l1.reverse ++ l2)

/-- The main loop of `Graph::bi_dijkstra`, fuel-indexed.  One pop from each
queue per iteration; the loop breaks (reporting no path) as soon as either
queue is exhausted, and returns when the popped pair's current distances sum
to at least the best meeting distance. -/
def biLoop (g : Graph) (start target : Nat) (bp : Nat) :
    Nat → (Nat → Nat) → (Nat → Nat) → List HeapNode →
    (Nat → Nat) → (Nat → Nat) → List HeapNode → Nat → Nat → Nat →
    Option PathResult
| 0, _, _, _, _, _, _, _, _, _ => none
| fuel+1, dist, parent, queue, dist2, parent2, queue2, sh, mid, pops =>
  match heapPop queue with
  | none => some ⟨none, none, pops⟩
  | some (m, rest) =>
    match heapPop queue2 with
    | none => some ⟨none, none, pops⟩
    | some (m2, rest2) =>
      if sh ≤ (dist m.id + dist2 m2.id) % U32MOD then
        some ⟨biPath parent parent2 start target mid bp,
          some ((dist mid + dist2 mid) % U32MOD), pops + 2⟩
      else
        let tf := (g.outEdges m.id).foldl (relaxBF m.id dist2) (dist, parent, rest, sh, mid)
        let tb := (g.outEdges m2.id).foldl (relaxBB m2.id tf.1)
          (dist2, parent2, rest2, tf.2.2.2.1, tf.2.2.2.2)
        biLoop g start target bp fuel tf.1 tf.2.1 tf.2.2.1 tb.1 tb.2.1 tb.2.2.1
          tb.2.2.2.1 tb.2.2.2.2 (pops + 2)

/-- `Graph::bi_dijkstra`. -/
def Graph.bi_dijkstra (g : Graph) (start target : Nat) (st : AlgorithmState) :
    Option PathResult :=
  let st0 := st.reset
  biLoop g start target (g.nodeCount + 1) (searchFuel g)
    (upd st0.distances start 0) st0.parent_nodes [⟨start, 0⟩]
    (upd st0.distances2 target 0) st0.parent_nodes2 [⟨target, 0⟩]
    U32MAX 0 0

/-!
## `Graph::find_nearest_node` (route/src/lib.rs, lines 325-359)

The index arithmetic that turns `(lon, lat)` into the top-left bracketing
cell is floating point; it is abstracted into the parameters `lonIdxLeft`
and `latIdxTop`.  The great-circle distance from the query point to a raster
node is abstracted as `d : Nat → Nat`.  The neighbour-id construction, the
water test and the selection loop are embedded exactly.
-/

/-- The four bracketing raster cells built by `find_nearest_node`
(right and bottom neighbours wrap modulo the raster dimensions). -/
def neighborIds (C R lonIdxLeft latIdxTop : Nat) : List Nat :=
  [latIdxTop * C + lonIdxLeft,
   latIdxTop * C + (lonIdxLeft + 1) % C,
   ((latIdxTop + 1) % R) * C + lonIdxLeft,
   ((latIdxTop + 1) % R) * C + (lonIdxLeft + 1) % C]

/-- The selection loop of `find_nearest_node`: keep the closest water cell. -/
def selectNearest (g : Graph) (d : Nat → Nat) (ids : List Nat) : Nat × Nat :=
  ids.foldl
    (fun acc n => if g.isWater n ∧ d n < acc.2 then (n, d n) else acc)
    (ids.headD 0, U32MAX)

/-- `find_nearest_node` after the floating-point index computation. -/
def findNearestNodeFrom (g : Graph) (d : Nat → Nat)
    (lonIdxLeft latIdxTop : Nat) : Option Nat :=
  let ids := neighborIds g.raster_columns_count g.raster_rows_count lonIdxLeft latIdxTop
  let best := selectNearest g d ids
  if best.2 = U32MAX then none else some best.1

/-- The selection fold of `find_nearest_node` with an explicit accumulator. -/
def selectFold (g : Graph) (d : Nat → Nat) (l : List Nat) (acc : Nat × Nat) : Nat × Nat :=
  l.foldl (fun acc n => if g.isWater n ∧ d n < acc.2 then (n, d n) else acc) acc

/-!
## The antimeridian split of `Graph::find_path` (route/src/lib.rs, lines 253-309)

The composed polyline is a list of `(lon, lat)` pairs; the coordinates are
`f64` in Rust and are embedded as exact rationals, faithful to every
comparison the loop performs.  The loop walks the list and, whenever two
consecutive longitudes differ by more than `180`, emits the current segment
ended by a synthetic point at `±180` (the sign of the departing side) and
starts the next segment at `∓180`.
-/

/-- One emitted `LineString`: the slice `coords[lineStart .. i-1]` prefixed,
when this is not the first segment, by the synthetic start point. -/
def splitSegment (coords : List (ℚ × ℚ)) (lineStart : Nat) (lonStart : ℚ)
    (stop : Nat) : List (ℚ × ℚ) :=
  (if 0 < lineStart then [(lonStart, (coords.getD lineStart (0, 0)).2)] else []) ++
    ((coords.drop lineStart).take (stop - lineStart))

/-- The loop's break condition between points `i-1` and `i`. -/
def jumpAt (coords : List (ℚ × ℚ)) (i : Nat) : Prop :=
  |(coords.getD (i-1) (0, 0)).1 - (coords.getD i (0, 0)).1| > 180

instance (coords : List (ℚ × ℚ)) (i : Nat) : Decidable (jumpAt coords i) :=
  inferInstanceAs (Decidable (_ > _))

/-- The split loop, iterating `i` over `[1, coords.length)`;
`steps` counts the remaining iterations (`i + steps = coords.length`). -/
def splitLoop (coords : List (ℚ × ℚ)) :
    Nat → Nat → Nat → ℚ → List (List (ℚ × ℚ)) → List (List (ℚ × ℚ))
| 0, lineStart, _, lonStart, acc =>
  acc ++ [splitSegment coords lineStart lonStart coords.length]
| steps+1, lineStart, i, lonStart, acc =>
  if jumpAt coords i then
    let lonEnd : ℚ := if (coords.getD (i-1) (0, 0)).1 < 0 then -180 else 180
    let line := splitSegment coords lineStart lonStart (i-1) ++
      [(lonEnd, (coords.getD (i-1) (0, 0)).2)]
    splitLoop coords steps i (i+1) (-lonEnd) (acc ++ [line])
  else
    splitLoop coords steps lineStart (i+1) lonStart acc

/-- The full antimeridian split: the loop followed by the final segment
`coords[lineStart ..]` (with its synthetic start point when split before). -/
def splitLines (coords : List (ℚ × ℚ)) : List (List (ℚ × ℚ)) :=
  splitLoop coords (coords.length - 1) 0 1 0 []

/-- Consecutive emitted features are joined by a synthetic point at `±180`
ending the earlier feature and one at `∓180` starting the later one. -/
def PairOk (fs : List (List (ℚ × ℚ))) : Prop :=
  ∀ k, k + 1 < fs.length →
    ∃ (e lat1 lat2 : ℚ), (e = 180 ∨ e = -180) ∧
      (fs.getD k []).getLast? = some (e, lat1) ∧
      (fs.getD (k + 1) []).head? = some (-e, lat2)

/-- Invariant of the split loop: the accumulated features pair up at
synthetic `±180` points; before the first break the accumulator is empty;
after a break the pending start longitude is `±180` and the last emitted
feature ends at its negation. -/
def SplitInv (acc : List (List (ℚ × ℚ))) (lineStart : Nat) (lonStart : ℚ) : Prop :=
  PairOk acc ∧
  (lineStart = 0 → acc = []) ∧
  (0 < lineStart → (lonStart = 180 ∨ lonStart = -180) ∧
    ∃ lat, (acc.getD (acc.length - 1) []).getLast? = some (-lonStart, lat))

/-!
## Coast assembly (extract/src/main.rs, lines 107-177)

Coordinates are pairs of `i32` decimicro-degrees.  The fragment map built
from the ways is keyed by each way's first coordinate; the model keeps it as
an association list in insertion order and always picks the head where the
`HashMap` iteration picks an unspecified element, which models one
admissible execution.
-/

/-- `extract::Coordinate`. -/
structure Coordinate where
  lon : Int
  lat : Int
deriving DecidableEq, Repr

/-- `extract::Coast`: an assembled (fragment of a) ring with its
longitude extent. -/
structure Coast where
  coordinates : List Coordinate
  leftmost : Int
  rightmost : Int
deriving DecidableEq, Repr

/-- The per-way extent scan (lines 108-120): fold min/max of the
longitudes starting from `i32::MAX` / `i32::MIN`. -/
def mkCoast (coords : List Coordinate) : Coast :=
  { coordinates := coords
    leftmost := coords.foldl (fun acc c => if c.lon < acc then c.lon else acc) 2147483647
    rightmost := coords.foldl (fun acc c => if acc < c.lon then c.lon else acc) (-2147483648) }

/-- The fragment map: each way keyed by its first coordinate. -/
def buildCoastMap (ways : List (List Coordinate)) : List (Coordinate × Coast) :=
  ways.map (fun w => (w.headD ⟨0, 0⟩, mkCoast w))

/-- Association-list lookup (models `HashMap::get_mut`). -/
def mapLookup (m : List (Coordinate × Coast)) (k : Coordinate) : Option Coast :=
  match m.find? (fun p => p.1 = k) with
  | none => none
  | some p => some p.2

/-- Remove the entry with key `k` (models `HashMap::remove`). -/
def mapRemove (m : List (Coordinate × Coast)) (k : Coordinate) :
    List (Coordinate × Coast) :=
  m.eraseP (fun p => p.1 = k)

/-- First and last coordinate of a fragment (`get_first` / `get_last`). -/
def Coast.first (c : Coast) : Coordinate := c.coordinates.headD ⟨0, 0⟩

/-- Last coordinate. -/
def Coast.last (c : Coast) : Coordinate := c.coordinates.getLastD ⟨0, 0⟩

/-- The assembly loop (lines 147-177), fuel-indexed.  While the current ring
is not closed, look up the fragment keyed by its last coordinate and append
it (the extent fields are not touched); when no continuation exists the loop
body does nothing and the `while` spins.  A closed ring is emitted and the
next fragment (the head of the map) starts a new ring; the loop ends when
the map is empty. -/
def assembleLoop : Nat → Coast → List (Coordinate × Coast) → List Coast →
    Option (List Coast)
| 0, _, _, _ => none
| fuel+1, current, m, acc =>
  if current.first = current.last then
    match m with
    | [] => some (acc ++ [current])
    | (k, _) :: _ =>
      match mapLookup m k with
      | none => none
      | some c => assembleLoop fuel c (mapRemove m k) (acc ++ [current])
  else
    match mapLookup m current.last with
    | some c =>
      assembleLoop fuel
        { current with coordinates := current.coordinates ++ c.coordinates }
        (mapRemove m current.last) acc
    | none => assembleLoop fuel current m acc

/-- `Coasts::new_from_pbffile`, from the parsed ways onward:
build the fragment map, pop the first fragment, run the assembly loop. -/
def assembleCoasts (fuel : Nat) (ways : List (List Coordinate)) :
    Option (List Coast) :=
  match buildCoastMap ways with
  | [] => none
  | (k, _) :: _ =>
    match mapLookup (buildCoastMap ways) k with
    | none => none
    | some c => assembleLoop fuel c (mapRemove (buildCoastMap ways) k) []

/-!
## The ray-test longitude interval of `Node::set_water_flag`
(extract/src/main.rs, lines 264-278)

Pure `i32` arithmetic: with `lo, hi` the sorted endpoint longitudes, the
edge stays a candidate for the meridian ray test exactly when the node's
longitude satisfies `lo ≤ x ∧ x < hi` (the code `continue`s otherwise).
-/

/-- The candidate test: `smaller_lon <= x && x < larger_lon` with
`smaller_lon, larger_lon` the sorted endpoint longitudes. -/
def edgeLonCandidate (firstLon secondLon x : Int) : Bool :=
  let smaller := if firstLon ≤ secondLon then firstLon else secondLon
  let larger := if firstLon ≤ secondLon then secondLon else firstLon
  decide (smaller ≤ x ∧ x < larger)

/-!
## The shortcut overlay builder (create_shortcuts/src/main.rs, lines 85-198)

`create_graph` copies the base adjacency, then for each rectangle runs
`add_edges` on the pair sequence produced by its five nested loops, and
finally rebuilds CSR offsets.  `add_edges` computes the weight with
`bi_dijkstra` on the base graph (unwrap: a failed search aborts, modelled by
`none`) and appends the edge at both endpoints.  The parallel per-rectangle
merge is modelled in rectangle order (one admissible merge order).
-/

/-- `get_index`. -/
def getIndex (g : Graph) (col row : Nat) : Nat := row * g.raster_columns_count + col

/-- The pair sequence of the five nested loops of `create_graph` for one
rectangle `(left, top, right, bottom)`. -/
def rectPairs (g : Graph) (rect : Nat × Nat × Nat × Nat) : List (Nat × Nat) :=
  let left := rect.1
  let top := rect.2.1
  let right := rect.2.2.1
  let bottom := rect.2.2.2
  ((List.range' top (bottom + 1 - top)).flatMap (fun l =>
    (List.range' left (right + 1 - left)).map (fun t => (getIndex g left l, getIndex g t top)) ++
    (List.range' top (bottom + 1 - top)).map (fun r => (getIndex g left l, getIndex g right r)) ++
    (List.range' left (right + 1 - left)).map (fun b => (getIndex g left l, getIndex g b bottom)))) ++
  ((List.range' left (right + 1 - left)).flatMap (fun t =>
    (List.range' top (bottom + 1 - top)).map (fun r => (getIndex g t top, getIndex g right r)) ++
    (List.range' left (right + 1 - left)).map (fun b => (getIndex g t top, getIndex g b bottom)))) ++
  ((List.range' top (bottom + 1 - top)).flatMap (fun r =>
    (List.range' left (right + 1 - left)).map (fun b => (getIndex g right r, getIndex g b bottom))))

/-- `add_edges`: weight a shortcut by `bi_dijkstra` on the base graph and
record it at both endpoints (`none` models the `unwrap` aborting). -/
def addEdges (g : Graph) (edges : Nat → List Edge) (p : Nat × Nat) :
    Option (Nat → List Edge) :=
  match g.bi_dijkstra p.1 p.2 (AlgorithmState.new (g.raster_rows_count * g.raster_columns_count)) with
  | none => none
  | some r =>
    match r.distance with
    | none => none
    | some dist =>
      some (fun i =>
        let withFirst :=
          if i = p.1 then edges i ++ [⟨p.2, dist⟩] else edges i
        if i = p.2 then withFirst ++ [⟨p.1, dist⟩] else withFirst)

/-- Fold `add_edges` over a pair list, aborting on the first failure. -/
def addEdgesAll (g : Graph) : List (Nat × Nat) → (Nat → List Edge) →
    Option (Nat → List Edge)
| [], edges => some edges
| p :: ps, edges =>
  match addEdges g edges p with
  | none => none
  | some edges' => addEdgesAll g ps edges'

/-- The per-node adjacency after `create_graph`'s accumulation phase:
base edges first, then each rectangle's contributions in order. -/
def overlayAdjacency (g : Graph) (rects : List (Nat × Nat × Nat × Nat)) :
    Option (Nat → List Edge) :=
  rects.foldl
    (fun acc rect =>
      match acc with
      | none => none
      | some edges => addEdgesAll g (rectPairs g rect) edges)
    (some (fun i => g.outEdges i))

/-- Running total of adjacency-list lengths: the offset of node `i` in the
rebuilt CSR. -/
def sumTo (adj : Nat → List Edge) (i : Nat) : Nat :=
  ((List.range i).map adj).foldl (fun acc l => acc + l.length) 0

/-- Rebuild CSR from per-node adjacency lists (lines 181-196; the new
offsets carry no rectangle-membership annotation, matching
`new_graph.offsets.push(...)` which pushes plain counters — the model stores
`none`). -/
def rebuildCSR (n : Nat) (adj : Nat → List Edge) : List (Nat × Option Nat) × List Edge :=
  ((List.range (n+1)).map (fun i => (sumTo adj i, (none : Option Nat))),
   (List.range n).flatMap adj)

/-- `create_graph`: the overlay graph, or `none` when some `bi_dijkstra`
call found no path (the Rust `unwrap` panics). -/
def createGraph (g : Graph) (rects : List (Nat × Nat × Nat × Nat)) :
    Option Graph :=
  match overlayAdjacency g rects with
  | none => none
  | some adj =>
    let n := g.raster_rows_count * g.raster_columns_count
    let csr := rebuildCSR n adj
    some { offsets := csr.1, edges := csr.2,
           raster_columns_count := g.raster_columns_count,
           raster_rows_count := g.raster_rows_count,
           shortcut_rectangles := rects }

/-!
## Definitions used by the correctness proofs
-/

/-- `m` is popped no later than `y`: strictly smaller distance, or equal
distance and an id at least as large (`HeapNode::cmp` pops the larger id
first on ties). -/
def popLe (m y : HeapNode) : Prop :=
  m.distance < y.distance ∨ (m.distance = y.distance ∧ y.id ≤ m.id)

/-- Consistency of the A* heuristic with respect to the edge weights:
along every edge the estimate drops by at most the edge weight. -/
def Consistent (g : Graph) (h : Nat → Nat) : Prop :=
  ∀ u v w, Edge.mk v w ∈ g.outEdges u → h u ≤ w + h v

/-- Termination measure: the sum of all tentative distances plus the queue
size strictly decreases at every loop iteration. -/
def distSum (n : Nat) (dist : Nat → Nat) : Nat :=
  ∑ v ∈ Finset.range n, dist v

/-- The loop invariant of the single-sided searches (`dijkstra` via `h = 0`,
`a_star`), relative to the ghost set `S` of already-popped node ids. -/
structure LoopInv (g : Graph) (h : Nat → Nat) (start : Nat) (S : Set Nat)
    (dist : Nat → Nat) (queue : List HeapNode) : Prop where
  dist_start : dist start = 0
  reached : ∀ v, dist v ≠ U32MAX →
    (∃ vs, SWalk g dist start v (dist v) vs) ∧ dist v < U32MAX
  entries : ∀ x ∈ queue, x.id < g.nodeCount ∧ dist x.id ≠ U32MAX ∧
    ((x.id = start ∧ x.distance = 0) ∨ dist x.id + h x.id ≤ x.distance)
  frontier : ∀ v, dist v ≠ U32MAX → v ∉ S → ∃ k, k ≤ dist v + h v ∧ HeapNode.mk v k ∈ queue
  settled_reached : ∀ x ∈ S, dist x ≠ U32MAX
  settled_relaxed : ∀ x ∈ S, ∀ e ∈ g.outEdges x, dist e.destination ≤ dist x + e.distance
  settled_min : ∀ x ∈ S, ∀ c, Walk g start x c → dist x ≤ c
  start_avail : start ∈ S ∨ HeapNode.mk start 0 ∈ queue

/-- The part of `LoopInv` that holds throughout the relaxation fold of a
freshly popped node `u`: all clauses except that `u`'s own edges are not yet
guaranteed relaxed.  `S` here is already `insert u S₀`. -/
structure RelaxInv (g : Graph) (h : Nat → Nat) (start u : Nat) (S : Set Nat)
    (t : (Nat → Nat) × (Nat → Nat) × List HeapNode) : Prop where
  dist_start : t.1 start = 0
  reached : ∀ v, t.1 v ≠ U32MAX →
    (∃ vs, SWalk g t.1 start v (t.1 v) vs) ∧ t.1 v < U32MAX
  entries : ∀ x ∈ t.2.2, x.id < g.nodeCount ∧ t.1 x.id ≠ U32MAX ∧
    ((x.id = start ∧ x.distance = 0) ∨ t.1 x.id + h x.id ≤ x.distance)
  frontier : ∀ v, t.1 v ≠ U32MAX → v ∉ S →
    ∃ k, k ≤ t.1 v + h v ∧ HeapNode.mk v k ∈ t.2.2
  settled_reached : ∀ x ∈ S, t.1 x ≠ U32MAX
  settled_relaxed : ∀ x ∈ S, x ≠ u →
    ∀ e ∈ g.outEdges x, t.1 e.destination ≤ t.1 x + e.distance
  settled_min : ∀ x ∈ S, ∀ c, Walk g start x c → t.1 x ≤ c
  start_avail : start ∈ S ∨ HeapNode.mk start 0 ∈ t.2.2

/-!
## Concrete instances used by witnesses and counterexamples
-/

/-- A one-node graph (1×1 raster, no edges). -/
def G1 : Graph :=
  { offsets := [(0, none), (0, none)], edges := [],
    raster_columns_count := 1, raster_rows_count := 1, shortcut_rectangles := [] }

/-- A path graph on four nodes `0 — 1 — 2 — 3`, every edge of weight 7
(1×4 raster). -/
def G2 : Graph :=
  { offsets := [(0, none), (1, none), (3, none), (5, none), (6, none)],
    edges := [⟨1, 7⟩, ⟨0, 7⟩, ⟨2, 7⟩, ⟨1, 7⟩, ⟨3, 7⟩, ⟨2, 7⟩],
    raster_columns_count := 1, raster_rows_count := 4, shortcut_rectangles := [] }

/-- An all-water 2×5 raster grid graph: horizontal edges of weight 3,
vertical edges of weight 5, stored at both endpoints
(`idx = row * 2 + col`). -/
def G5 : Graph :=
  { offsets := [(0, none), (2, none), (4, none), (7, none), (10, none), (13, none),
      (16, none), (19, none), (22, none), (24, none), (26, none)],
    edges := [⟨1, 3⟩, ⟨2, 5⟩,  ⟨0, 3⟩, ⟨3, 5⟩,  ⟨3, 3⟩, ⟨0, 5⟩, ⟨4, 5⟩,
      ⟨2, 3⟩, ⟨1, 5⟩, ⟨5, 5⟩,  ⟨5, 3⟩, ⟨2, 5⟩, ⟨6, 5⟩,  ⟨4, 3⟩, ⟨3, 5⟩, ⟨7, 5⟩,
      ⟨7, 3⟩, ⟨4, 5⟩, ⟨8, 5⟩,  ⟨6, 3⟩, ⟨5, 5⟩, ⟨9, 5⟩,  ⟨9, 3⟩, ⟨6, 5⟩,  ⟨8, 3⟩, ⟨7, 5⟩],
    raster_columns_count := 2, raster_rows_count := 5, shortcut_rectangles := [] }

/-- Two coastline ways whose concatenation closes a ring: the second way
carries the extreme longitude `9`, which the assembled ring's stored extent
misses. -/
def exWays : List (List Coordinate) :=
  [[⟨0, 0⟩, ⟨5, 1⟩], [⟨5, 1⟩, ⟨9, 2⟩, ⟨0, 0⟩]]

/-- A single way that never closes and has no continuation: the assembly
loop spins on it forever. -/
def badWays : List (List Coordinate) :=
  [[⟨0, 0⟩, ⟨1, 1⟩]]

/-- The number of antimeridian breaks in a composed polyline. -/
def countJumps (coords : List (ℚ × ℚ)) : Nat :=
  ((List.range' 1 (coords.length - 1)).filter (fun i => decide (jumpAt coords i))).length

/-- A composed polyline whose endpoints lie on opposite sides of the
antimeridian (longitudes −179 and 179) but which never jumps by more than
180°: the route runs the long way round, through longitude 0. -/
def exAround : List (ℚ × ℚ) := [(-179, 0), (0, 0), (179, 0)]

/-- A composed polyline with a single antimeridian jump whose first emitted
`LineString` nevertheless contains a longitude step of 190°. -/
def exWide : List (ℚ × ℚ) := [(-10, 0), (170, 0), (-171, 0)]

/-- The overlay graph built over `G5` with the single rectangle
`(left, top, right, bottom) = (0, 0, 1, 4)` covering the whole raster. -/
def G5overlay : Graph := (createGraph G5 [(0, 0, 1, 4)]).getD G5

/-- A scratch state with arbitrary garbage contents (node count 10). -/
def stGarbage : AlgorithmState :=
  ⟨fun i => i + 17, fun _ => 3, [⟨5, 5⟩, ⟨0, 0⟩], fun i => 2 * i, fun _ => 0, [⟨9, 1⟩], 10⟩

/-- A three-node graph with the single directed edge `2 → 1` of weight 1:
the adjacency is not symmetric, as nothing in the CSR format forces it to
be. -/
def Gdir : Graph :=
  { offsets := [(0, none), (0, none), (0, none), (1, none)],
    edges := [⟨1, 1⟩],
    raster_columns_count := 3, raster_rows_count := 1, shortcut_rectangles := [] }

/-- A three-node graph with `u32`-representable weights on which the wrapping
`u32` sums overflow: edges `0 → 1` (3·10⁹), `0 → 2` (4·10⁹), `1 → 2` (3·10⁹).
The true shortest `0 → 2` distance is 4·10⁹ < `u32::MAX`, but the relaxation
through node 1 computes `3·10⁹ + 3·10⁹`, which wraps to 1705032704. -/
def Gwrap : Graph :=
  { offsets := [(0, none), (2, none), (3, none), (3, none)],
    edges := [⟨1, 3000000000⟩, ⟨2, 4000000000⟩, ⟨2, 3000000000⟩],
    raster_columns_count := 3, raster_rows_count := 1, shortcut_rectangles := [] }

/-- A 1 × 2 raster with a single edge of weight 7 between its two cells. -/
def Gpair : Graph :=
  { offsets := [(0, none), (1, none), (2, none)],
    edges := [⟨1, 7⟩, ⟨0, 7⟩],
    raster_columns_count := 2, raster_rows_count := 1, shortcut_rectangles := [] }

/-- The overlay graph built over `Gpair` with its whole raster as the one
rectangle. -/
def GpairOverlay : Graph := (createGraph Gpair [(0, 0, 1, 0)]).getD Gpair

/-!
## Basic lemmas: buffer updates and the heap order
-/

theorem upd_self (f : Nat → Nat) (i v : Nat) : upd f i v i = v := by
  simp [upd]

theorem upd_other (f : Nat → Nat) (i v j : Nat) (hj : j ≠ i) : upd f i v j = f j := by
  simp [upd, hj]

theorem upd_eq_update (f : Nat → Nat) (i v : Nat) :
    upd f i v = Function.update f i v := by
  funext j
  simp [upd, Function.update]

theorem popLe_refl (a : HeapNode) : popLe a a := Or.inr ⟨rfl, le_refl _⟩

theorem popLe_trans {a b c : HeapNode} (hab : popLe a b) (hbc : popLe b c) :
    popLe a c := by
  rcases hab with hab | ⟨hab1, hab2⟩ <;> rcases hbc with hbc | ⟨hbc1, hbc2⟩
  · exact Or.inl (hab.trans hbc)
  · exact Or.inl (hbc1 ▸ hab)
  · exact Or.inl (hab1 ▸ hbc)
  · exact Or.inr ⟨hab1.trans hbc1, hbc2.trans hab2⟩

theorem heapGtb_true_iff (a b : HeapNode) :
    heapGtb a b = true ↔
      a.distance < b.distance ∨ (a.distance = b.distance ∧ b.id < a.id) := by
  unfold heapGtb HeapNode.cmp
  rcases Nat.lt_trichotomy a.distance b.distance with hlt | heq | hgt
  · have h1 : compare b.distance a.distance = Ordering.gt := Nat.compare_eq_gt.mpr hlt
    rw [h1]
    simp only [Ordering.then]
    exact ⟨fun _ => Or.inl hlt, fun _ => rfl⟩
  · have h1 : compare b.distance a.distance = Ordering.eq := Nat.compare_eq_eq.mpr heq.symm
    rw [h1]
    simp only [Ordering.then]
    rcases Nat.lt_trichotomy a.id b.id with h2 | h2 | h2
    · have h3 : compare a.id b.id = Ordering.lt := Nat.compare_eq_lt.mpr h2
      rw [h3]
      constructor
      · intro hcon
        exact absurd hcon (by decide)
      · intro hcon
        exfalso
        rcases hcon with hcon | ⟨_, hcon⟩ <;> omega
    · have h3 : compare a.id b.id = Ordering.eq := Nat.compare_eq_eq.mpr h2
      rw [h3]
      constructor
      · intro hcon
        exact absurd hcon (by decide)
      · intro hcon
        exfalso
        rcases hcon with hcon | ⟨_, hcon⟩ <;> omega
    · have h3 : compare a.id b.id = Ordering.gt := Nat.compare_eq_gt.mpr h2
      rw [h3]
      exact ⟨fun _ => Or.inr ⟨heq, h2⟩, fun _ => rfl⟩
  · have h1 : compare b.distance a.distance = Ordering.lt := Nat.compare_eq_lt.mpr hgt
    rw [h1]
    simp only [Ordering.then]
    constructor
    · intro h2
      exact absurd h2 (by decide)
    · intro h2
      exfalso
      rcases h2 with h2 | ⟨h2, _⟩ <;> omega

theorem heapGtb_false_iff (a b : HeapNode) :
    heapGtb a b = false ↔ popLe b a := by
  rw [← Bool.not_eq_true, heapGtb_true_iff]
  unfold popLe
  constructor
  · intro hcon
    push_neg at hcon
    rcases Nat.lt_trichotomy b.distance a.distance with hlt | heq | hgt
    · exact Or.inl hlt
    · exact Or.inr ⟨heq, hcon.2 heq.symm⟩
    · exfalso
      have := hcon.1
      omega
  · intro hple
    push_neg
    rcases hple with hlt | ⟨heq, hid⟩
    · refine ⟨Nat.le_of_lt hlt, fun h => ?_⟩
      omega
    · refine ⟨Nat.le_of_eq heq, fun _ => hid⟩

theorem heapGtb_popLe {a b : HeapNode} (hg : heapGtb a b = true) : popLe a b := by
  rw [heapGtb_true_iff] at hg
  rcases hg with h | ⟨h1, h2⟩
  · exact Or.inl h
  · exact Or.inr ⟨h1, Nat.le_of_lt h2⟩

theorem heapMaxFold_spec (l : List HeapNode) :
    ∀ init : HeapNode,
      (l.foldl (fun acc y => if heapGtb y acc then y else acc) init) ∈ init :: l ∧
      ∀ y ∈ init :: l,
        popLe (l.foldl (fun acc y => if heapGtb y acc then y else acc) init) y := by
  induction l with
  | nil =>
    intro init
    refine ⟨List.mem_singleton_self init, ?_⟩
    intro y hy
    rw [List.mem_singleton] at hy
    subst hy
    exact popLe_refl _
  | cons z l ih =>
    intro init
    by_cases hz : heapGtb z init = true
    · have := ih z
      simp only [List.foldl_cons, hz, if_pos]
      constructor
      · rcases List.mem_cons.mp this.1 with h | h
        · simp [h]
        · simp
          tauto
      · intro y hy
        rcases List.mem_cons.mp hy with rfl | hy'
        · exact popLe_trans (this.2 z (List.mem_cons_self _ _)) (heapGtb_popLe hz)
        · rcases List.mem_cons.mp hy' with rfl | hy''
          · exact this.2 y (List.mem_cons_self _ _)
          · exact this.2 y (List.mem_cons_of_mem _ hy'')
    · have := ih init
      have hz' : popLe init z := by
        rw [← heapGtb_false_iff]
        exact Bool.eq_false_iff.mpr (fun h => hz h)
      simp only [List.foldl_cons, hz, if_neg, Bool.false_eq_true, not_false_iff]
      constructor
      · rcases List.mem_cons.mp this.1 with h | h
        · simp [h]
        · simp
          tauto
      · intro y hy
        rcases List.mem_cons.mp hy with rfl | hy'
        · exact this.2 y (List.mem_cons_self _ _)
        · rcases List.mem_cons.mp hy' with rfl | hy''
          · exact popLe_trans (this.2 init (List.mem_cons_self _ _)) hz'
          · exact this.2 y (List.mem_cons_of_mem _ hy'')

theorem heapPop_none_iff (q : List HeapNode) : heapPop q = none ↔ q = [] := by
  cases q with
  | nil => simp [heapPop, heapMax]
  | cons x xs => simp [heapPop, heapMax]

theorem heapPop_some {q : List HeapNode} {m : HeapNode} {rest : List HeapNode}
    (hp : heapPop q = some (m, rest)) :
    m ∈ q ∧ rest = q.erase m ∧ ∀ y ∈ q, popLe m y := by
  cases q with
  | nil => simp [heapPop, heapMax] at hp
  | cons x xs =>
    have hspec := heapMaxFold_spec xs x
    simp only [heapPop, heapMax, Option.some.injEq, Prod.mk.injEq] at hp
    obtain ⟨hm, hrest⟩ := hp
    subst hm
    exact ⟨hspec.1, hrest.symm, hspec.2⟩

theorem heapPop_rest_subset {q : List HeapNode} {m : HeapNode} {rest : List HeapNode}
    (hp : heapPop q = some (m, rest)) : ∀ y ∈ rest, y ∈ q := by
  obtain ⟨_, hrest, _⟩ := heapPop_some hp
  subst hrest
  intro y hy
  exact List.mem_of_mem_erase hy

theorem heapPop_mem_or {q : List HeapNode} {m : HeapNode} {rest : List HeapNode}
    (hp : heapPop q = some (m, rest)) : ∀ y ∈ q, y = m ∨ y ∈ rest := by
  obtain ⟨_, hrest, _⟩ := heapPop_some hp
  subst hrest
  intro y hy
  by_cases hym : y = m
  · exact Or.inl hym
  · exact Or.inr (List.mem_erase_of_ne hym |>.mpr hy)

theorem heapPop_length {q : List HeapNode} {m : HeapNode} {rest : List HeapNode}
    (hp : heapPop q = some (m, rest)) : rest.length + 1 = q.length := by
  obtain ⟨hm, hrest, _⟩ := heapPop_some hp
  subst hrest
  rw [List.length_erase_of_mem hm]
  have hpos : 0 < q.length := List.length_pos.mpr (List.ne_nil_of_mem hm)
  omega

/-!
## CSR validity and walk lemmas
-/

theorem offAt_eq_map_getD (g : Graph) (i : Nat) :
    g.offAt i = (g.offsets.map Prod.fst).getD i 0 := by
  unfold Graph.offAt
  by_cases hi : i < g.offsets.length
  · rw [List.getD_eq_getElem _ _ hi, List.getD_eq_getElem _ _ (by simpa using hi)]
    simp
  · rw [List.getD_eq_default _ _ (by omega), List.getD_eq_default _ _ (by simpa using (by omega : ¬ i < g.offsets.length))]

theorem offAt_mono {g : Graph} (hv : ValidGraph g) {i j : Nat} (hij : i ≤ j)
    (hj : j < g.offsets.length) : g.offAt i ≤ g.offAt j := by
  rcases Nat.eq_or_lt_of_le hij with rfl | hlt
  · exact le_refl _
  · have hchain := hv.2.1
    have hpair : (g.offsets.map Prod.fst).Pairwise (· ≤ ·) :=
      List.chain'_iff_pairwise.mp hchain
    have hi : i < (g.offsets.map Prod.fst).length := by
      simp only [List.length_map]
      omega
    have hj' : j < (g.offsets.map Prod.fst).length := by
      simp only [List.length_map]
      omega
    have := List.pairwise_iff_getElem.mp hpair i j hi hj' hlt
    rw [offAt_eq_map_getD, offAt_eq_map_getD,
      List.getD_eq_getElem _ _ hi, List.getD_eq_getElem _ _ hj']
    exact this

theorem offAt_le_edges {g : Graph} (hv : ValidGraph g) {i : Nat}
    (hi : i < g.offsets.length) : g.offAt i ≤ g.edges.length := by
  have h1 : g.offAt i ≤ g.offAt (g.offsets.length - 1) :=
    offAt_mono hv (by omega) (by omega)
  rw [hv.2.2.1] at h1
  exact h1

theorem outEdges_mem_edges {g : Graph} (hv : ValidGraph g) {u : Nat}
    (hu : u < g.nodeCount) : ∀ e ∈ g.outEdges u, e ∈ g.edges := by
  intro e he
  unfold Graph.outEdges at he
  rw [List.mem_map] at he
  obtain ⟨k, hk, rfl⟩ := he
  rw [List.mem_range'_1] at hk
  have hkU : k < g.offAt (u + 1) := by omega
  have hub : u + 1 < g.offsets.length := by
    unfold Graph.nodeCount at hu
    omega
  have hlt : k < g.edges.length := lt_of_lt_of_le hkU (offAt_le_edges hv hub)
  rw [List.getD_eq_getElem _ _ hlt]
  exact List.getElem_mem hlt

theorem outEdges_dest_lt {g : Graph} (hv : ValidGraph g) {u : Nat}
    (hu : u < g.nodeCount) : ∀ e ∈ g.outEdges u, e.destination < g.nodeCount :=
  fun e he => hv.2.2.2 e (outEdges_mem_edges hv hu e he)

theorem Walk.snoc {g : Graph} {a b v w c : Nat} (hw : Walk g a b c)
    (he : Edge.mk v w ∈ g.outEdges b) : Walk g a v (c + w) := by
  induction hw with
  | refl x =>
    have := Walk.cons he (Walk.refl v)
    simpa using this
  | cons he' hw' ih =>
    have := Walk.cons he' (ih he)
    convert this using 1
    omega

theorem walk_telescope {g : Graph} {h : Nat → Nat} (hcons : Consistent g h)
    {a b c : Nat} (hw : Walk g a b c) : h a ≤ c + h b := by
  induction hw with
  | refl x => simp
  | cons he hw' ih =>
    have h1 := hcons _ _ _ he
    omega

/-!
## Simple relaxation walks bound every stored distance by `edgeSum`
-/

theorem SWalk_toWalk {g : Graph} {dist : Nat → Nat} {s v c : Nat} {vs : List Nat}
    (h : SWalk g dist s v c vs) : Walk g s v c := by
  induction h with
  | refl h0 => exact Walk.refl s
  | snoc hp he hb hnm ih => exact Walk.snoc ih he

theorem SWalk_mem_le {g : Graph} {dist : Nat → Nat} {s v c : Nat} {vs : List Nat}
    (h : SWalk g dist s v c vs) : ∀ x ∈ vs, dist x ≤ c := by
  induction h with
  | refl h0 =>
    intro x hx
    rw [List.mem_singleton] at hx
    subst hx
    rw [h0]
  | snoc hp he hb hnm ih =>
    intro x hx
    rcases List.mem_cons.mp hx with rfl | hx'
    · exact hb
    · exact le_trans (ih x hx') (Nat.le_add_right _ _)

theorem SWalk_endpoint {g : Graph} {dist : Nat → Nat} {s v c : Nat} {vs : List Nat}
    (h : SWalk g dist s v c vs) : ∃ vs', vs = v :: vs' := by
  cases h with
  | refl h0 => exact ⟨[], rfl⟩
  | snoc hp he hb hnm => exact ⟨_, rfl⟩

theorem SWalk_mem_lt {g : Graph} {dist : Nat → Nat} {s v c : Nat} {vs : List Nat}
    (hval : ValidGraph g) (hs : s < g.nodeCount)
    (h : SWalk g dist s v c vs) : ∀ x ∈ vs, x < g.nodeCount := by
  induction h with
  | refl h0 =>
    intro x hx
    rw [List.mem_singleton] at hx
    subst hx
    exact hs
  | snoc hp he hb hnm ih =>
    rename_i v' c' vs' e
    intro x hx
    rcases List.mem_cons.mp hx with rfl | hx'
    · obtain ⟨vs0, hvs0⟩ := SWalk_endpoint hp
      have hv' : v' < g.nodeCount := ih v' (by rw [hvs0]; exact List.mem_cons_self _ _)
      exact outEdges_dest_lt hval hv' e he
    · exact ih x hx'

theorem SWalk_nodup {g : Graph} {dist : Nat → Nat} {s v c : Nat} {vs : List Nat}
    (h : SWalk g dist s v c vs) : vs.Nodup := by
  induction h with
  | refl h0 => exact List.nodup_singleton s
  | snoc hp he hb hnm ih => exact List.nodup_cons.mpr ⟨hnm, ih⟩

theorem SWalk_mono {g : Graph} {dist dist' : Nat → Nat} {s v c : Nat} {vs : List Nat}
    (hle : ∀ x, dist' x ≤ dist x) (h : SWalk g dist s v c vs) :
    SWalk g dist' s v c vs := by
  induction h with
  | refl h0 =>
    refine SWalk.refl ?_
    have := hle s
    omega
  | snoc hp he hb hnm ih =>
    exact SWalk.snoc ih he (le_trans (hle _) hb) hnm

theorem SWalk_cost_tail {g : Graph} {dist : Nat → Nat} {s v c : Nat} {vs : List Nat}
    (h : SWalk g dist s v c vs) : c ≤ (vs.tail.map (sumOut g)).sum := by
  induction h with
  | refl h0 => exact Nat.zero_le _
  | snoc hp he hb hnm ih =>
    rename_i v' c' vs' e
    obtain ⟨vs0, rfl⟩ := SWalk_endpoint hp
    simp only [List.tail_cons, List.map_cons, List.sum_cons]
    have hw : e.distance ≤ sumOut g v' :=
      List.single_le_sum (fun x _ => Nat.zero_le x) _ (List.mem_map_of_mem _ he)
    have hih : c' ≤ (vs0.map (sumOut g)).sum := by simpa using ih
    omega

theorem sum_le_of_subperm {l l' : List Nat} (hsp : List.Subperm l l') (f : Nat → Nat) :
    (l.map f).sum ≤ (l'.map f).sum := by
  obtain ⟨l₁, hperm, hsub⟩ := hsp
  calc (l.map f).sum = (l₁.map f).sum := (List.Perm.sum_eq ((hperm.map f))).symm
    _ ≤ (l'.map f).sum := List.Sublist.sum_le_sum (hsub.map f) (fun b _ => Nat.zero_le b)

theorem range_map_getD_eq (l : List Edge) :
    (List.range l.length).map (fun k => l.getD k (Edge.mk 0 0)) = l := by
  apply List.ext_getElem
  · simp
  · intro i h1 h2
    simp only [List.getElem_map, List.getElem_range]
    exact List.getD_eq_getElem _ _ h2

theorem sumOut_eq_slice (g : Graph) (u : Nat) :
    sumOut g u = (((List.range (g.offAt (u + 1) - g.offAt u)).map
      (fun k => g.offAt u + k)).map
      (fun k => (g.edges.getD k (Edge.mk 0 0)).distance)).sum := by
  unfold sumOut Graph.outEdges
  rw [List.range'_eq_map_range]
  simp only [List.map_map]
  rfl

theorem sum_range_add_map (f : Nat → Nat) (a d : Nat) :
    ((List.range (a + d)).map f).sum =
      ((List.range a).map f).sum +
        (((List.range d).map (fun k => a + k)).map f).sum := by
  rw [List.range_add, List.map_append, List.sum_append]

theorem sumOut_range_le (g : Graph) (hval : ValidGraph g) :
    ((List.range g.nodeCount).map (sumOut g)).sum ≤ edgeSum g := by
  have key : ∀ m, m ≤ g.nodeCount →
      ((List.range m).map (sumOut g)).sum ≤
        ((List.range (g.offAt m)).map
          (fun k => (g.edges.getD k (Edge.mk 0 0)).distance)).sum := by
    intro m
    induction m with
    | zero =>
      intro _
      simp
    | succ m ih =>
      intro hm
      have hmono : g.offAt m ≤ g.offAt (m + 1) := by
        refine offAt_mono hval (by omega) ?_
        unfold Graph.nodeCount at hm
        omega
      have hd : g.offAt (m + 1) = g.offAt m + (g.offAt (m + 1) - g.offAt m) := by
        omega
      rw [List.range_succ, List.map_append, List.sum_append, hd, sum_range_add_map]
      have hih := ih (by omega)
      have hs := sumOut_eq_slice g m
      simp only [List.map_singleton, List.sum_singleton]
      omega
  have h1 := key g.nodeCount (le_refl _)
  have h2 : g.offAt g.nodeCount = g.edges.length := by
    unfold Graph.nodeCount
    exact hval.2.2.1
  rw [h2] at h1
  refine le_trans h1 (le_of_eq ?_)
  unfold edgeSum
  rw [show (fun k => (g.edges.getD k (Edge.mk 0 0)).distance) =
      (fun e => e.distance) ∘ (fun k => g.edges.getD k (Edge.mk 0 0)) from rfl]
  rw [← List.map_map, range_map_getD_eq]

theorem SWalk_cost_le {g : Graph} {dist : Nat → Nat} {s v c : Nat} {vs : List Nat}
    (hval : ValidGraph g) (hs : s < g.nodeCount)
    (h : SWalk g dist s v c vs) : c ≤ edgeSum g := by
  have h1 : c ≤ (vs.tail.map (sumOut g)).sum := SWalk_cost_tail h
  obtain ⟨vs0, rfl⟩ := SWalk_endpoint h
  have hnd : vs0.Nodup := (List.nodup_cons.mp (SWalk_nodup h)).2
  have hlt : ∀ x ∈ vs0, x < g.nodeCount := fun x hx =>
    SWalk_mem_lt hval hs h x (List.mem_cons_of_mem _ hx)
  have hsubp : List.Subperm vs0 (List.range g.nodeCount) :=
    List.subperm_of_subset hnd (fun x hx => List.mem_range.mpr (hlt x hx))
  have h2 : (vs0.map (sumOut g)).sum ≤ ((List.range g.nodeCount).map (sumOut g)).sum :=
    sum_le_of_subperm hsubp _
  have h3 := sumOut_range_le g hval
  simp only [List.tail_cons] at h1
  omega

theorem edge_dist_le_edgeSum {g : Graph} {e : Edge} (he : e ∈ g.edges) :
    e.distance ≤ edgeSum g :=
  List.single_le_sum (fun x _ => Nat.zero_le x) _ (List.mem_map_of_mem _ he)

/-!
## Termination measure
-/

theorem distSum_upd {n : Nat} {f : Nat → Nat} {d x : Nat} (hd : d < n) :
    distSum n (upd f d x) + f d = distSum n f + x := by
  unfold distSum
  rw [upd_eq_update]
  have hdmem : d ∈ Finset.range n := Finset.mem_range.mpr hd
  rw [Finset.sum_update_of_mem hdmem]
  have h2 : ∑ v ∈ Finset.range n, f v =
      f d + ∑ v ∈ (Finset.range n).erase d, f v :=
    (Finset.add_sum_erase _ f hdmem).symm
  rw [Finset.erase_eq] at h2
  omega

/-!
## Preservation of the invariant by one relaxation
-/

theorem relaxA_spec {g : Graph} {h : Nat → Nat} {start u : Nat} {S : Set Nat}
    (hval : ValidGraph g) (huN : u < g.nodeCount) (huS : u ∈ S)
    (hW1 : 2 * edgeSum g < U32MOD)
    (hW2 : ∀ v, v < g.nodeCount → edgeSum g + h v < U32MOD)
    (hsN : start < g.nodeCount)
    {t : (Nat → Nat) × (Nat → Nat) × List HeapNode}
    (hinv : RelaxInv g h start u S t) {e : Edge} (he : e ∈ g.outEdges u) :
    RelaxInv g h start u S (relaxA h u t e) ∧
    (relaxA h u t e).1 u = t.1 u ∧
    (∀ v, (relaxA h u t e).1 v ≤ t.1 v) ∧
    (relaxA h u t e).1 e.destination ≤ t.1 u + e.distance ∧
    distSum g.nodeCount (relaxA h u t e).1 + (relaxA h u t e).2.2.length ≤
      distSum g.nodeCount t.1 + t.2.2.length ∧
    (∀ x ∈ t.2.2, x ∈ (relaxA h u t e).2.2) := by
  have hee : Edge.mk e.destination e.distance ∈ g.outEdges u := by
    cases e
    exact he
  -- the relaxed node is settled, so its distance carries a simple witness
  have huMAX : t.1 u ≠ U32MAX := hinv.settled_reached u huS
  obtain ⟨⟨vsu, hswu⟩, huLT⟩ := hinv.reached u huMAX
  have hcu : t.1 u ≤ edgeSum g := SWalk_cost_le hval hsN hswu
  have hedB : e.distance ≤ edgeSum g :=
    edge_dist_le_edgeSum (outEdges_mem_edges hval huN e he)
  -- under the no-overflow bound the u32 sum does not wrap
  have hnw : t.1 u + e.distance < U32MOD := by omega
  have hndeq : (t.1 u + e.distance) % U32MOD = t.1 u + e.distance :=
    Nat.mod_eq_of_lt hnw
  set nd := t.1 u + e.distance with hnd
  by_cases himp : nd < t.1 e.destination
  · have hdestN : e.destination < g.nodeCount := outEdges_dest_lt hval huN e he
    -- the new value is below the sentinel
    have hndMAX : nd < U32MAX := by
      by_cases hdm : t.1 e.destination = U32MAX
      · omega
      · have := (hinv.reached _ hdm).2
        omega
    -- the destination is not on the witness of `u`
    have hdnm : e.destination ∉ vsu := by
      intro hmem
      have := SWalk_mem_le hswu e.destination hmem
      omega
    -- the update only decreases stored distances
    have hmono : ∀ x, upd t.1 e.destination nd x ≤ t.1 x := by
      intro x
      by_cases hx : x = e.destination
      · subst hx
        rw [upd_self]
        omega
      · rw [upd_other _ _ _ _ hx]
    -- a simple witness for the new value
    have hswd : SWalk g (upd t.1 e.destination nd) start e.destination nd
        (e.destination :: vsu) := by
      refine SWalk.snoc (SWalk_mono hmono hswu) he ?_ hdnm
      rw [upd_self]
    have hcd : nd ≤ edgeSum g := SWalk_cost_le hval hsN hswd
    -- the pushed key does not wrap either
    have hkeyeq : (nd + h e.destination) % U32MOD = nd + h e.destination := by
      refine Nat.mod_eq_of_lt ?_
      have := hW2 e.destination hdestN
      omega
    have hrel : relaxA h u t e =
        (upd t.1 e.destination nd,
         upd t.2.1 e.destination u,
         ⟨e.destination, nd + h e.destination⟩ :: t.2.2) := by
      simp only [relaxA]
      rw [← hnd, hndeq, if_pos himp, hkeyeq]
    -- walk to the improved node
    have hwu : Walk g start u (t.1 u) := SWalk_toWalk hswu
    have hwdest : Walk g start e.destination nd := Walk.snoc hwu hee
    -- the improved node is not settled
    have hdS : e.destination ∉ S := by
      intro hmem
      have := hinv.settled_min _ hmem _ hwdest
      omega
    have hdu : e.destination ≠ u := fun hdu => hdS (hdu ▸ huS)
    have hdstart : e.destination ≠ start := by
      intro hds
      rw [hds, hinv.dist_start] at himp
      omega
    rw [hrel]
    dsimp only
    refine ⟨?_, ?_, ?_, ?_, ?_, ?_⟩
    · refine ⟨?_, ?_, ?_, ?_, ?_, ?_, ?_, ?_⟩
      all_goals dsimp only
      · rw [upd_other _ _ _ _ (fun hs => hdstart hs.symm)]
        exact hinv.dist_start
      · intro v hv
        by_cases hvd : v = e.destination
        · subst hvd
          rw [upd_self]
          exact ⟨⟨e.destination :: vsu, hswd⟩, hndMAX⟩
        · rw [upd_other _ _ _ _ hvd] at hv ⊢
          obtain ⟨⟨vs0, hsw0⟩, hlt0⟩ := hinv.reached v hv
          exact ⟨⟨vs0, SWalk_mono hmono hsw0⟩, hlt0⟩
      · intro x hx
        rcases List.mem_cons.mp hx with rfl | hx'
        · refine ⟨hdestN, ?_, Or.inr ?_⟩
          · rw [upd_self]
            unfold U32MAX at hndMAX ⊢
            omega
          · rw [upd_self]
        · obtain ⟨h1, h2, h3⟩ := hinv.entries x hx'
          refine ⟨h1, ?_, ?_⟩
          · by_cases hxd : x.id = e.destination
            · rw [hxd, upd_self]
              unfold U32MAX at hndMAX ⊢
              omega
            · rw [upd_other _ _ _ _ hxd]
              exact h2
          · rcases h3 with h3 | h3
            · exact Or.inl h3
            · refine Or.inr ?_
              by_cases hxd : x.id = e.destination
              · rw [hxd, upd_self]
                rw [hxd] at h3
                omega
              · rw [upd_other _ _ _ _ hxd]
                exact h3
      · intro v hv hvS
        by_cases hvd : v = e.destination
        · subst hvd
          refine ⟨nd + h e.destination, ?_, List.mem_cons_self _ _⟩
          rw [upd_self]
        · rw [upd_other _ _ _ _ hvd] at hv
          obtain ⟨k, hk1, hk2⟩ := hinv.frontier v hv hvS
          exact ⟨k, by rwa [upd_other _ _ _ _ hvd], List.mem_cons_of_mem _ hk2⟩
      · intro x hx
        have hxd : x ≠ e.destination := fun hh => hdS (hh ▸ hx)
        rw [upd_other _ _ _ _ hxd]
        exact hinv.settled_reached x hx
      · intro x hx hxu e' he'
        have hxd : x ≠ e.destination := fun hh => hdS (hh ▸ hx)
        rw [upd_other _ _ _ _ hxd]
        have hold := hinv.settled_relaxed x hx hxu e' he'
        by_cases hed : e'.destination = e.destination
        · rw [hed, upd_self]
          rw [hed] at hold
          omega
        · rw [upd_other _ _ _ _ hed]
          exact hold
      · intro x hx c hc
        have hxd : x ≠ e.destination := fun hh => hdS (hh ▸ hx)
        rw [upd_other _ _ _ _ hxd]
        exact hinv.settled_min x hx c hc
      · rcases hinv.start_avail with h1 | h1
        · exact Or.inl h1
        · exact Or.inr (List.mem_cons_of_mem _ h1)
    · exact upd_other _ _ _ _ (Ne.symm hdu)
    · intro v
      by_cases hvd : v = e.destination
      · subst hvd
        rw [upd_self]
        omega
      · rw [upd_other _ _ _ _ hvd]
    · rw [upd_self]
    · have hms := distSum_upd (f := t.1) (x := nd) hdestN
      simp only [List.length_cons]
      omega
    · intro x hx
      exact List.mem_cons_of_mem _ hx
  · have hrel : relaxA h u t e = t := by
      simp only [relaxA]
      rw [← hnd, hndeq, if_neg himp]
    rw [hrel]
    refine ⟨hinv, rfl, fun v => le_refl _, ?_, le_refl _, fun x hx => hx⟩
    omega

theorem relaxFold_spec {g : Graph} {h : Nat → Nat} {start u : Nat} {S : Set Nat}
    (hval : ValidGraph g) (huN : u < g.nodeCount) (huS : u ∈ S)
    (hW1 : 2 * edgeSum g < U32MOD)
    (hW2 : ∀ v, v < g.nodeCount → edgeSum g + h v < U32MOD)
    (hsN : start < g.nodeCount) :
    ∀ (L : List Edge) (t : (Nat → Nat) × (Nat → Nat) × List HeapNode),
      (∀ e ∈ L, e ∈ g.outEdges u) → RelaxInv g h start u S t →
      RelaxInv g h start u S (L.foldl (relaxA h u) t) ∧
      (L.foldl (relaxA h u) t).1 u = t.1 u ∧
      (∀ v, (L.foldl (relaxA h u) t).1 v ≤ t.1 v) ∧
      (∀ e ∈ L, (L.foldl (relaxA h u) t).1 e.destination ≤
        (L.foldl (relaxA h u) t).1 u + e.distance) ∧
      distSum g.nodeCount (L.foldl (relaxA h u) t).1 +
        (L.foldl (relaxA h u) t).2.2.length ≤
        distSum g.nodeCount t.1 + t.2.2.length ∧
      (∀ x ∈ t.2.2, x ∈ (L.foldl (relaxA h u) t).2.2) := by
  intro L
  induction L with
  | nil =>
    intro t _ hinv
    exact ⟨hinv, rfl, fun v => le_refl _, fun e he => absurd he (List.not_mem_nil e),
      le_refl _, fun x hx => hx⟩
  | cons e L ih =>
    intro t hsub hinv
    have hstep := relaxA_spec hval huN huS hW1 hW2 hsN hinv (hsub e (List.mem_cons_self _ _))
    obtain ⟨hinv', hu', hle', hrel', hms', hq'⟩ := hstep
    have hih := ih (relaxA h u t e) (fun e' he' => hsub e' (List.mem_cons_of_mem _ he')) hinv'
    obtain ⟨hinvF, huF, hleF, hrelF, hmsF, hqF⟩ := hih
    simp only [List.foldl_cons]
    refine ⟨hinvF, by rw [huF, hu'], fun v => (hleF v).trans (hle' v), ?_, ?_, ?_⟩
    · intro e1 he1
      rcases List.mem_cons.mp he1 with heq | he2
      · subst heq
        calc (L.foldl (relaxA h u) (relaxA h u t e1)).1 e1.destination
            ≤ (relaxA h u t e1).1 e1.destination := hleF _
          _ ≤ t.1 u + e1.distance := hrel'
          _ = (L.foldl (relaxA h u) (relaxA h u t e1)).1 u + e1.distance := by
              rw [huF, hu']
      · exact hrelF e1 he2
    · omega
    · intro x hx
      exact hqF x (hq' x hx)

/-!
## The settling argument
-/

theorem popLe_dist_le {a b : HeapNode} (hle : popLe a b) : a.distance ≤ b.distance := by
  rcases hle with hlt | ⟨heq, _⟩
  · exact Nat.le_of_lt hlt
  · exact Nat.le_of_eq heq

theorem cover {g : Graph} {h : Nat → Nat} {start : Nat} {S : Set Nat}
    {dist : Nat → Nat} {queue : List HeapNode}
    (hinv : LoopInv g h start S dist queue) (hcons : Consistent g h) :
    ∀ a x c, Walk g a x c → a ∈ S → x ∉ S → dist a + c < U32MAX →
      ∃ e : HeapNode, e ∈ queue ∧ e.distance ≤ dist a + c + h x := by
  intro a x c hw
  induction hw with
  | refl a =>
    intro haS haxS _
    exact absurd haS haxS
  | cons he hw ih =>
    rename_i u v b w c'
    intro huS hbS hbound
    have hdv : dist v ≤ dist u + w := by
      have := hinv.settled_relaxed u huS _ he
      simpa using this
    have hdvM : dist v ≠ U32MAX := by
      unfold U32MAX at hbound ⊢
      omega
    by_cases hvS : v ∈ S
    · obtain ⟨e1, he1, hle1⟩ := ih hvS hbS (by omega)
      exact ⟨e1, he1, by omega⟩
    · obtain ⟨k, hk1, hk2⟩ := hinv.frontier v hdvM hvS
      have htel : h v ≤ c' + h b := walk_telescope hcons hw
      exact ⟨⟨v, k⟩, hk2, by simp only; omega⟩

theorem empty_settles {g : Graph} {h : Nat → Nat} {start : Nat} {S : Set Nat}
    {dist : Nat → Nat} (hinv : LoopInv g h start S dist []) :
    ∀ a x c, Walk g a x c → a ∈ S → dist a + c < U32MAX →
      x ∈ S ∧ dist x ≤ dist a + c := by
  intro a x c hw
  induction hw with
  | refl a =>
    intro haS _
    exact ⟨haS, by omega⟩
  | cons he hw ih =>
    rename_i u v b w c'
    intro huS hbound
    have hdv : dist v ≤ dist u + w := by
      have := hinv.settled_relaxed u huS _ he
      simpa using this
    have hdvM : dist v ≠ U32MAX := by
      unfold U32MAX at hbound ⊢
      omega
    have hvS : v ∈ S := by
      by_contra hvS
      obtain ⟨k, _, hk2⟩ := hinv.frontier v hdvM hvS
      exact absurd hk2 (List.not_mem_nil _)
    obtain ⟨hxS, hxle⟩ := ih hvS (by omega)
    exact ⟨hxS, by omega⟩

theorem pop_settles {g : Graph} {h : Nat → Nat} {start : Nat} {S : Set Nat}
    {dist : Nat → Nat} {queue : List HeapNode}
    (hinv : LoopInv g h start S dist queue) (hcons : Consistent g h)
    {m : HeapNode} {rest : List HeapNode}
    (hpop : heapPop queue = some (m, rest)) :
    ∀ c, Walk g start m.id c → dist m.id ≤ c := by
  obtain ⟨hmem, _, hmin⟩ := heapPop_some hpop
  obtain ⟨hmN, hmR, hmKey⟩ := hinv.entries m hmem
  intro c hc
  rcases hinv.start_avail with hS | hq
  · by_cases hmS : m.id ∈ S
    · exact hinv.settled_min _ hmS _ hc
    · by_cases hcM : U32MAX ≤ c
      · exact le_trans (Nat.le_of_lt (hinv.reached _ hmR).2) hcM
      · have hbound : dist start + c < U32MAX := by
          rw [hinv.dist_start]
          omega
        obtain ⟨e1, he1, hle1⟩ := cover hinv hcons start m.id c hc hS hmS hbound
        have hme := popLe_dist_le (hmin e1 he1)
        rw [hinv.dist_start] at hle1
        rcases hmKey with ⟨hid, _⟩ | hkey
        · rw [hid, hinv.dist_start]
          omega
        · omega
  · have := popLe_dist_le (hmin _ hq)
    simp only at this
    have hm0 : m.distance = 0 := by omega
    rcases hmKey with ⟨hid, _⟩ | hkey
    · rw [hid, hinv.dist_start]
      omega
    · omega

/-!
## Invariant maintenance across one loop iteration
-/

theorem loopInv_step {g : Graph} {h : Nat → Nat} {start : Nat} {S : Set Nat}
    {dist : Nat → Nat} {queue : List HeapNode}
    (hval : ValidGraph g) (hcons : Consistent g h)
    (hW1 : 2 * edgeSum g < U32MOD)
    (hW2 : ∀ v, v < g.nodeCount → edgeSum g + h v < U32MOD)
    (hsN : start < g.nodeCount)
    (hinv : LoopInv g h start S dist queue)
    {m : HeapNode} {rest : List HeapNode}
    (hpop : heapPop queue = some (m, rest)) (parent : Nat → Nat) :
    LoopInv g h start (insert m.id S)
      ((g.outEdges m.id).foldl (relaxA h m.id) (dist, parent, rest)).1
      ((g.outEdges m.id).foldl (relaxA h m.id) (dist, parent, rest)).2.2 ∧
    distSum g.nodeCount ((g.outEdges m.id).foldl (relaxA h m.id) (dist, parent, rest)).1 +
      ((g.outEdges m.id).foldl (relaxA h m.id) (dist, parent, rest)).2.2.length <
      distSum g.nodeCount dist + queue.length := by
  obtain ⟨hmem, _, hmin⟩ := heapPop_some hpop
  obtain ⟨hmN, hmR, _⟩ := hinv.entries m hmem
  have hsettle := pop_settles hinv hcons hpop
  have hsub := heapPop_rest_subset hpop
  have hpre : RelaxInv g h start m.id (insert m.id S) (dist, parent, rest) := by
    refine ⟨hinv.dist_start, hinv.reached, ?_, ?_, ?_, ?_, ?_, ?_⟩
    · intro x hx
      exact hinv.entries x (hsub x hx)
    · intro v hv hvS
      rw [Set.mem_insert_iff] at hvS
      push_neg at hvS
      obtain ⟨k, hk1, hk2⟩ := hinv.frontier v hv hvS.2
      rcases heapPop_mem_or hpop _ hk2 with heq | hmem'
      · exfalso
        apply hvS.1
        rw [← heq]
      · exact ⟨k, hk1, hmem'⟩
    · intro x hx
      rcases Set.mem_insert_iff.mp hx with rfl | hx'
      · exact hmR
      · exact hinv.settled_reached x hx'
    · intro x hx hxm e he
      rcases Set.mem_insert_iff.mp hx with rfl | hx'
      · exact absurd rfl hxm
      · exact hinv.settled_relaxed x hx' e he
    · intro x hx c hc
      rcases Set.mem_insert_iff.mp hx with rfl | hx'
      · exact hsettle c hc
      · exact hinv.settled_min x hx' c hc
    · rcases hinv.start_avail with h1 | h1
      · exact Or.inl (Set.mem_insert_of_mem _ h1)
      · rcases heapPop_mem_or hpop _ h1 with heq | hmem'
        · refine Or.inl ?_
          have : m.id = start := by rw [← heq]
          rw [this]
          exact Set.mem_insert _ _
        · exact Or.inr hmem'
  have hfold := relaxFold_spec hval hmN (Set.mem_insert _ _) hW1 hW2 hsN
    (g.outEdges m.id) (dist, parent, rest) (fun e he => he) hpre
  obtain ⟨hinvF, huF, hleF, hrelF, hmsF, _⟩ := hfold
  constructor
  · refine ⟨hinvF.dist_start, hinvF.reached, hinvF.entries, hinvF.frontier,
      hinvF.settled_reached, ?_, hinvF.settled_min, hinvF.start_avail⟩
    intro x hx e he
    by_cases hxm : x = m.id
    · subst hxm
      have := hrelF e he
      rwa [huF] at this ⊢
    · exact hinvF.settled_relaxed x hx hxm e he
  · have hlen := heapPop_length hpop
    simp only at hmsF
    omega

/-!
## The main loop: partial correctness and termination
-/

theorem aStarLoop_spec {g : Graph} {h : Nat → Nat} {start target bp : Nat}
    (hval : ValidGraph g) (hcons : Consistent g h)
    (hW1 : 2 * edgeSum g < U32MOD)
    (hW2 : ∀ v, v < g.nodeCount → edgeSum g + h v < U32MOD)
    (hsN : start < g.nodeCount) :
    ∀ fuel (dist parent : Nat → Nat) (queue : List HeapNode) (pops : Nat) (S : Set Nat),
      LoopInv g h start S dist queue → target ∉ S →
      ∀ r, aStarLoop g start target h bp fuel dist parent queue pops = some r →
        (∃ d, r.distance = some d ∧ IsShortestDistance g start target d ∧ d < U32MAX) ∨
        (r.distance = none ∧ r.path = none ∧ ∀ c, Walk g start target c → U32MAX ≤ c) := by
  intro fuel
  induction fuel with
  | zero =>
    intro dist parent queue pops S _ _ r hr
    simp [aStarLoop] at hr
  | succ fuel ih =>
    intro dist parent queue pops S hinv htS r hr
    rw [aStarLoop] at hr
    rcases hpop : heapPop queue with _ | ⟨m, rest⟩
    · rw [hpop] at hr
      simp only [Option.some.injEq] at hr
      subst hr
      refine Or.inr ⟨rfl, rfl, ?_⟩
      intro c hc
      by_contra hbig
      push_neg at hbig
      have hq0 : queue = [] := (heapPop_none_iff queue).mp hpop
      subst hq0
      have hs0 : dist start = 0 := hinv.dist_start
      have hsR : dist start ≠ U32MAX := by
        rw [hs0]
        unfold U32MAX
        omega
      have hsS : start ∈ S := by
        by_contra hsS
        obtain ⟨k, _, hk2⟩ := hinv.frontier start hsR hsS
        exact absurd hk2 (List.not_mem_nil _)
      have := empty_settles hinv start target c hc hsS (by rw [hs0]; omega)
      exact htS this.1
    · rw [hpop] at hr
      simp only at hr
      by_cases hmt : m.id = target
      · rw [if_pos hmt] at hr
        simp only [Option.some.injEq] at hr
        subst hr
        obtain ⟨hmem, _, _⟩ := heapPop_some hpop
        obtain ⟨_, hmR, _⟩ := hinv.entries m hmem
        refine Or.inl ⟨dist target, rfl, ⟨?_, ?_⟩, ?_⟩
        · rw [← hmt]
          obtain ⟨⟨vs0, hsw0⟩, _⟩ := hinv.reached _ hmR
          exact SWalk_toWalk hsw0
        · intro c hc
          rw [← hmt] at hc ⊢
          exact pop_settles hinv hcons hpop c hc
        · rw [← hmt]
          exact (hinv.reached _ hmR).2
      · rw [if_neg hmt] at hr
        obtain ⟨hinv', _⟩ := loopInv_step hval hcons hW1 hW2 hsN hinv hpop parent
        refine ih _ _ _ _ (insert m.id S) hinv' ?_ r hr
        rw [Set.mem_insert_iff]
        push_neg
        exact ⟨fun hh => hmt hh.symm, htS⟩

theorem relaxFold_queue_ids {g : Graph} {h : Nat → Nat} {u : Nat} :
    ∀ (L : List Edge) (t : (Nat → Nat) × (Nat → Nat) × List HeapNode),
      (∀ e ∈ L, e.destination < g.nodeCount) →
      (∀ x ∈ t.2.2, x.id < g.nodeCount) →
      ∀ x ∈ (L.foldl (relaxA h u) t).2.2, x.id < g.nodeCount := by
  intro L
  induction L with
  | nil =>
    intro t _ hq x hx
    exact hq x hx
  | cons e L ihL =>
    intro t hdest hq
    simp only [List.foldl_cons]
    refine ihL _ (fun e' he' => hdest e' (List.mem_cons_of_mem _ he')) ?_
    intro x hx
    by_cases himp : (t.1 u + e.distance) % U32MOD < t.1 e.destination
    · have hrel : relaxA h u t e =
          (upd t.1 e.destination ((t.1 u + e.distance) % U32MOD),
           upd t.2.1 e.destination u,
           ⟨e.destination, ((t.1 u + e.distance) % U32MOD + h e.destination) % U32MOD⟩
             :: t.2.2) := by
        simp [relaxA, himp]
      rw [hrel] at hx
      rcases List.mem_cons.mp hx with rfl | hx'
      · exact hdest e (List.mem_cons_self _ _)
      · exact hq x hx'
    · have hrel : relaxA h u t e = t := by
        simp [relaxA, himp]
      rw [hrel] at hx
      exact hq x hx

theorem relaxFold_measure {g : Graph} {h : Nat → Nat} {u : Nat} :
    ∀ (L : List Edge) (t : (Nat → Nat) × (Nat → Nat) × List HeapNode),
      (∀ e ∈ L, e.destination < g.nodeCount) →
      distSum g.nodeCount (L.foldl (relaxA h u) t).1 +
        (L.foldl (relaxA h u) t).2.2.length ≤
        distSum g.nodeCount t.1 + t.2.2.length := by
  intro L
  induction L with
  | nil =>
    intro t _
    exact le_refl _
  | cons e L ihL =>
    intro t hdest
    simp only [List.foldl_cons]
    refine le_trans (ihL _ (fun e' he' => hdest e' (List.mem_cons_of_mem _ he'))) ?_
    by_cases himp : (t.1 u + e.distance) % U32MOD < t.1 e.destination
    · have hrel : relaxA h u t e =
          (upd t.1 e.destination ((t.1 u + e.distance) % U32MOD),
           upd t.2.1 e.destination u,
           ⟨e.destination, ((t.1 u + e.distance) % U32MOD + h e.destination) % U32MOD⟩
             :: t.2.2) := by
        simp [relaxA, himp]
      rw [hrel]
      have hms := distSum_upd (f := t.1) (x := (t.1 u + e.distance) % U32MOD)
        (hdest e (List.mem_cons_self _ _))
      simp only [List.length_cons]
      omega
    · have hrel : relaxA h u t e = t := by
        simp [relaxA, himp]
      rw [hrel]

theorem aStarLoop_total {g : Graph} {h : Nat → Nat} {start target bp : Nat}
    (hval : ValidGraph g) :
    ∀ fuel (dist parent : Nat → Nat) (queue : List HeapNode) (pops : Nat),
      (∀ x ∈ queue, x.id < g.nodeCount) →
      distSum g.nodeCount dist + queue.length < fuel →
      ∃ r, aStarLoop g start target h bp fuel dist parent queue pops = some r := by
  intro fuel
  induction fuel with
  | zero =>
    intro dist parent queue pops _ hms
    omega
  | succ fuel ih =>
    intro dist parent queue pops hids hms
    rw [aStarLoop]
    rcases hpop : heapPop queue with _ | ⟨m, rest⟩
    · exact ⟨_, rfl⟩
    · simp only
      by_cases hmt : m.id = target
      · rw [if_pos hmt]
        exact ⟨_, rfl⟩
      · rw [if_neg hmt]
        have hmN : m.id < g.nodeCount := hids m (heapPop_some hpop).1
        have hdest : ∀ e ∈ g.outEdges m.id, e.destination < g.nodeCount :=
          outEdges_dest_lt hval hmN
        have hids' := relaxFold_queue_ids (h := h) (u := m.id) (g.outEdges m.id)
          (dist, parent, rest) hdest
          (fun x hx => hids x (heapPop_rest_subset hpop x hx))
        have hms' := relaxFold_measure (h := h) (u := m.id) (g.outEdges m.id)
          (dist, parent, rest) hdest
        have hlen := heapPop_length hpop
        refine ih _ _ _ _ hids' ?_
        simp only at hms'
        omega

/-!
## Top-level characterization of `a_star` and `dijkstra`
-/

theorem initial_loopInv {g : Graph} {h : Nat → Nat} {start : Nat}
    (hstart : start < g.nodeCount) :
    LoopInv g h start (∅ : Set Nat) (upd (fun _ => U32MAX) start 0)
      [HeapNode.mk start 0] := by
  have hMAXpos : (0 : Nat) ≠ U32MAX := by
    unfold U32MAX
    omega
  refine ⟨upd_self _ _ _, ?_, ?_, ?_, ?_, ?_, ?_, Or.inr (List.mem_singleton_self _)⟩
  · intro v hv
    by_cases hvs : v = start
    · subst hvs
      rw [upd_self]
      refine ⟨⟨_, SWalk.refl (upd_self _ _ _)⟩, ?_⟩
      unfold U32MAX
      omega
    · rw [upd_other _ _ _ _ hvs] at hv
      exact absurd rfl hv
  · intro x hx
    rw [List.mem_singleton] at hx
    subst hx
    refine ⟨hstart, ?_, Or.inl ⟨rfl, rfl⟩⟩
    rw [upd_self]
    exact hMAXpos
  · intro v hv _
    by_cases hvs : v = start
    · subst hvs
      exact ⟨0, Nat.zero_le _, List.mem_singleton_self _⟩
    · rw [upd_other _ _ _ _ hvs] at hv
      exact absurd rfl hv
  · intro x hx
    exact absurd hx (Set.not_mem_empty x)
  · intro x hx
    exact absurd hx (Set.not_mem_empty x)
  · intro x hx
    exact absurd hx (Set.not_mem_empty x)

theorem distSum_const (n : Nat) : distSum n (fun _ => U32MAX) = n * U32MAX := by
  unfold distSum
  rw [Finset.sum_const, Finset.card_range, smul_eq_mul]

theorem initial_measure {g : Graph} {start : Nat} (hstart : start < g.nodeCount) :
    distSum g.nodeCount (upd (fun _ => U32MAX) start 0) +
      ([HeapNode.mk start 0] : List HeapNode).length < searchFuel g := by
  have h1 := distSum_upd (n := g.nodeCount) (f := fun _ => U32MAX) (x := 0) hstart
  rw [distSum_const] at h1
  dsimp only at h1
  simp only [List.length_singleton]
  unfold searchFuel
  have hM : 1 ≤ U32MAX := by
    unfold U32MAX
    omega
  obtain ⟨k, hk⟩ : ∃ k, g.nodeCount = k + 1 := ⟨g.nodeCount - 1, by omega⟩
  rw [hk] at h1 ⊢
  have h2 : (k + 1) * U32MAX = k * U32MAX + U32MAX := by ring
  omega

/-- Full behavioural characterization of `Graph::a_star` under a consistent
heuristic: the search terminates, and either reports the shortest distance
(necessarily below the `u32::MAX` sentinel), or reports no path, which
happens exactly when every walk costs at least the sentinel. -/
theorem a_star_spec (g : Graph) (h : Nat → Nat) (start target : Nat)
    (st : AlgorithmState) (hval : ValidGraph g) (hcons : Consistent g h)
    (hW1 : 2 * edgeSum g < U32MOD)
    (hW2 : ∀ v, v < g.nodeCount → edgeSum g + h v < U32MOD)
    (hstart : start < g.nodeCount) :
    ∃ r, g.a_star start target h st = some r ∧
      ((∃ d, r.distance = some d ∧ IsShortestDistance g start target d ∧ d < U32MAX) ∨
       (r.distance = none ∧ r.path = none ∧ ∀ c, Walk g start target c → U32MAX ≤ c)) := by
  have hids : ∀ x ∈ ([HeapNode.mk start 0] : List HeapNode), x.id < g.nodeCount := by
    intro x hx
    rw [List.mem_singleton] at hx
    subst hx
    exact hstart
  obtain ⟨r, hr⟩ := @aStarLoop_total g h start target (g.nodeCount + 1) hval (searchFuel g)
    (upd (fun _ => U32MAX) start 0) (fun _ => U32MAX) [HeapNode.mk start 0] 0
    hids (initial_measure hstart)
  refine ⟨r, hr, ?_⟩
  exact aStarLoop_spec hval hcons hW1 hW2 hstart (searchFuel g) _ _ _ 0 ∅
    (initial_loopInv hstart) (Set.not_mem_empty target) r hr

theorem consistent_zero (g : Graph) : Consistent g (fun _ => 0) := by
  intro u v w _
  simp

theorem relaxD_eq_relaxA (u : Nat)
    (t : (Nat → Nat) × (Nat → Nat) × List HeapNode) (e : Edge) :
    relaxD u t e = relaxA (fun _ => 0) u t e := by
  have hkey : ∀ x : Nat, (x % U32MOD + 0) % U32MOD = x % U32MOD := by
    intro x
    rw [Nat.add_zero]
    exact Nat.mod_mod_of_dvd x dvd_rfl
  simp only [relaxD, relaxA, hkey]

theorem dijkstraLoop_eq_aStarLoop (g : Graph) (start target bp : Nat) :
    ∀ fuel (dist parent : Nat → Nat) (queue : List HeapNode) (pops : Nat),
      dijkstraLoop g start target bp fuel dist parent queue pops =
      aStarLoop g start target (fun _ => 0) bp fuel dist parent queue pops := by
  intro fuel
  induction fuel with
  | zero =>
    intro dist parent queue pops
    rfl
  | succ fuel ih =>
    intro dist parent queue pops
    rw [dijkstraLoop, aStarLoop]
    rcases hpop : heapPop queue with _ | ⟨m, rest⟩
    · rfl
    · simp only
      by_cases hmt : m.id = target
      · rw [if_pos hmt, if_pos hmt]
      · rw [if_neg hmt, if_neg hmt]
        have hfold : (g.outEdges m.id).foldl (relaxD m.id) (dist, parent, rest) =
            (g.outEdges m.id).foldl (relaxA (fun _ => 0) m.id) (dist, parent, rest) := by
          have : relaxD m.id = relaxA (fun _ => 0) m.id := by
            funext t e
            exact relaxD_eq_relaxA m.id t e
          rw [this]
        rw [hfold, ih]

/-- Full behavioural characterization of `Graph::dijkstra` under the
no-overflow bound on the total edge weight. -/
theorem dijkstra_spec (g : Graph) (start target : Nat)
    (st : AlgorithmState) (hval : ValidGraph g)
    (hW1 : 2 * edgeSum g < U32MOD) (hstart : start < g.nodeCount) :
    ∃ r, g.dijkstra start target st = some r ∧
      ((∃ d, r.distance = some d ∧ IsShortestDistance g start target d ∧ d < U32MAX) ∨
       (r.distance = none ∧ r.path = none ∧ ∀ c, Walk g start target c → U32MAX ≤ c)) := by
  have hbridge : g.dijkstra start target st = g.a_star start target (fun _ => 0) st := by
    unfold Graph.dijkstra Graph.a_star
    rw [dijkstraLoop_eq_aStarLoop]
  rw [hbridge]
  have hW2 : ∀ v, v < g.nodeCount → edgeSum g + (fun _ : Nat => 0) v < U32MOD := by
    intro v _
    show edgeSum g + 0 < U32MOD
    omega
  exact a_star_spec g (fun _ => 0) start target st hval (consistent_zero g)
    hW1 hW2 hstart

/-!
## Claim C1: agreement of the three search variants
-/

/-- C1, counterexample: the three variants do not agree in all the claim's
cases.  At `s = t` (graph `G1`, the empty path exists and costs 0) both
`dijkstra` and `a_star` report distance 0 while `bi_dijkstra` reports no
distance at all.  And on a graph whose adjacency is not symmetric (`Gdir`,
single directed edge `2 → 1`), for `s = 2 ≠ t = 1` a path of cost 1 exists
and `dijkstra` returns it, but `bi_dijkstra`'s backward queue (seeded at
`t` and relaxing forward out-edges) empties immediately and the search
breaks with no distance. -/
theorem claim_C1_counterexample :
    (Reachable G1 0 0 ∧
     (∃ r, G1.dijkstra 0 0 (AlgorithmState.new 1) = some r ∧ r.distance = some 0) ∧
     (∃ r, G1.a_star 0 0 (fun _ => 0) (AlgorithmState.new 1) = some r ∧
       r.distance = some 0) ∧
     (∃ r, G1.bi_dijkstra 0 0 (AlgorithmState.new 1) = some r ∧ r.distance = none)) ∧
    (Reachable Gdir 2 1 ∧
     (∃ r, Gdir.dijkstra 2 1 (AlgorithmState.new 3) = some r ∧ r.distance = some 1) ∧
     (∃ r, Gdir.bi_dijkstra 2 1 (AlgorithmState.new 3) = some r ∧ r.distance = none)) := by
  refine ⟨⟨⟨0, Walk.refl 0⟩, ⟨_, rfl, by decide⟩, ⟨_, rfl, by decide⟩, ⟨_, rfl, by decide⟩⟩,
    ⟨⟨1, ?_⟩, ⟨_, rfl, by decide⟩, ⟨_, rfl, by decide⟩⟩⟩
  have hw := Walk.cons (g := Gdir) (b := 1)
    (show Edge.mk 1 1 ∈ Gdir.outEdges 2 by decide) (Walk.refl 1)
  simpa using hw

/-- C1, amended: for every structurally valid graph, every consistent
heuristic and every query, under the no-overflow bounds (twice the total
edge weight below `2^32`, and heuristic values small enough that no pushed
key wraps), `dijkstra` and `a_star` report equal distances — the
shortest-walk length whenever some walk costs less than `u32::MAX`, and
both report absence otherwise — so the two report the presence of a path
in exactly the same cases.  The wrapping `u32` additions are modelled
exactly; outside the no-overflow bounds the program itself returns wrapped,
non-shortest distances.  `bi_dijkstra` is not part of the agreement (see
the counterexample). -/
theorem claim_C1 (g : Graph) (h : Nat → Nat) (s t : Nat) (st1 st2 : AlgorithmState)
    (hval : ValidGraph g) (hcons : Consistent g h)
    (hW1 : 2 * edgeSum g < U32MOD)
    (hW2 : ∀ v, v < g.nodeCount → edgeSum g + h v < U32MOD)
    (hs : s < g.nodeCount) :
    ∃ r1 r2, g.dijkstra s t st1 = some r1 ∧ g.a_star s t h st2 = some r2 ∧
      r1.distance = r2.distance ∧
      (r1.distance = none ↔ r2.distance = none) ∧
      (∀ d, r1.distance = some d → IsShortestDistance g s t d) := by
  obtain ⟨r1, h1, hd1⟩ := dijkstra_spec g s t st1 hval hW1 hs
  obtain ⟨r2, h2, hd2⟩ := a_star_spec g h s t st2 hval hcons hW1 hW2 hs
  refine ⟨r1, r2, h1, h2, ?_⟩
  rcases hd1 with ⟨d1, e1, s1, m1⟩ | ⟨e1, p1, w1⟩
  · rcases hd2 with ⟨d2, e2, s2, m2⟩ | ⟨e2, p2, w2⟩
    · have hd : d1 = d2 := le_antisymm (s1.2 d2 s2.1) (s2.2 d1 s1.1)
      subst hd
      rw [e1, e2]
      refine ⟨rfl, by simp, fun d hd => ?_⟩
      obtain rfl := Option.some.inj hd
      exact s1
    · exact absurd (w2 d1 s1.1) (not_le.mpr m1)
  · rcases hd2 with ⟨d2, e2, s2, m2⟩ | ⟨e2, p2, w2⟩
    · exact absurd (w1 d2 s2.1) (not_le.mpr m2)
    · rw [e1, e2]
      refine ⟨rfl, by simp, fun d hd => ?_⟩
      simp at hd

theorem claim_C1_witness :
    (ValidGraph G2 ∧ Consistent G2 (fun _ => 0) ∧ 2 * edgeSum G2 < U32MOD ∧
     (∀ v, v < G2.nodeCount → edgeSum G2 + (fun _ : Nat => 0) v < U32MOD) ∧
     0 < G2.nodeCount) ∧
    ∃ r1 r2, G2.dijkstra 0 3 (AlgorithmState.new 4) = some r1 ∧
      G2.a_star 0 3 (fun _ => 0) (AlgorithmState.new 4) = some r2 ∧
      r1.distance = r2.distance ∧
      (r1.distance = none ↔ r2.distance = none) ∧
      (∀ d, r1.distance = some d → IsShortestDistance G2 0 3 d) :=
  ⟨⟨by decide, consistent_zero G2, by decide,
    by intro v hv; show edgeSum G2 + 0 < U32MOD; decide, by decide⟩,
   claim_C1 G2 (fun _ => 0) 0 3 (AlgorithmState.new 4) (AlgorithmState.new 4)
     (by decide) (consistent_zero G2) (by decide)
     (by intro v hv; show edgeSum G2 + 0 < U32MOD; decide) (by decide)⟩

/-!
## Claim C2: Dijkstra functional correctness
-/

theorem gwrap_walk2 : ∀ b c, Walk Gwrap 2 b c → b = 2 ∧ c = 0 := by
  intro b c hw
  cases hw with
  | refl => exact ⟨rfl, rfl⟩
  | cons he hw' =>
    have hout : Gwrap.outEdges 2 = [] := rfl
    rw [hout] at he
    exact absurd he (List.not_mem_nil _)

theorem gwrap_walk1 : ∀ b c, Walk Gwrap 1 b c →
    (b = 1 ∧ c = 0) ∨ (b = 2 ∧ c = 3000000000) := by
  intro b c hw
  cases hw with
  | refl => exact Or.inl ⟨rfl, rfl⟩
  | cons he hw' =>
    rename_i v w c'
    have hout : Gwrap.outEdges 1 = [⟨2, 3000000000⟩] := rfl
    rw [hout, List.mem_singleton] at he
    have hv : v = 2 ∧ w = 3000000000 := by
      cases he
      exact ⟨rfl, rfl⟩
    obtain ⟨rfl, rfl⟩ := hv
    obtain ⟨rfl, rfl⟩ := gwrap_walk2 b c' hw'
    exact Or.inr ⟨rfl, rfl⟩

theorem gwrap_walk0 : ∀ c, Walk Gwrap 0 2 c →
    c = 4000000000 ∨ c = 6000000000 := by
  intro c hw
  cases hw with
  | cons he hw' =>
    rename_i v w c'
    have hout : Gwrap.outEdges 0 = [⟨1, 3000000000⟩, ⟨2, 4000000000⟩] := rfl
    rw [hout] at he
    rcases List.mem_cons.mp he with heq | he2
    · have hv : v = 1 ∧ w = 3000000000 := by
        cases heq
        exact ⟨rfl, rfl⟩
      obtain ⟨rfl, rfl⟩ := hv
      rcases gwrap_walk1 2 c' hw' with ⟨h2, _⟩ | ⟨_, rfl⟩
      · exact absurd h2 (by decide)
      · exact Or.inr rfl
    · rw [List.mem_singleton] at he2
      have hv : v = 2 ∧ w = 4000000000 := by
        cases he2
        exact ⟨rfl, rfl⟩
      obtain ⟨rfl, rfl⟩ := hv
      obtain ⟨_, rfl⟩ := gwrap_walk2 2 c' hw'
      exact Or.inl rfl

/-- C2, counterexample: on the valid graph `Gwrap` (all weights
`u32`-representable) a `0 → 2` walk of cost 4·10⁹ < `u32::MAX` exists, yet
`dijkstra` relaxes node 2 through node 1 with the wrapping sum
`3·10⁹ + 3·10⁹ ≡ 1705032704 (mod 2^32)` and returns 1705032704 — which is
the cost of no `0 → 2` walk at all, refuting the unconditional
shortest-distance claim. -/
theorem claim_C2_counterexample :
    ValidGraph Gwrap ∧
    (∃ cw, Walk Gwrap 0 2 cw ∧ cw < U32MAX) ∧
    (∃ r, Gwrap.dijkstra 0 2 (AlgorithmState.new 3) = some r ∧
      r.distance = some 1705032704) ∧
    ¬ IsShortestDistance Gwrap 0 2 1705032704 := by
  refine ⟨by decide, ⟨4000000000, ?_, by decide⟩, ⟨_, rfl, by decide⟩, ?_⟩
  · have hw := Walk.cons (b := 2)
      (show Edge.mk 2 4000000000 ∈ Gwrap.outEdges 0 by decide) (Walk.refl 2)
    simpa using hw
  · rintro ⟨hw, _⟩
    rcases gwrap_walk0 _ hw with hc | hc <;> exact absurd hc (by decide)

/-- C2, amended: for every CSR graph with valid structure, any source below
the node count, and the no-overflow bound `2 * edgeSum < 2^32` (without
which the wrapping `u32` additions make the program return non-shortest
distances — see the counterexample), `dijkstra(s, t)` terminates; whenever
some `s`–`t` walk costs less than the `u32::MAX` sentinel it reports the
length of a shortest `s`–`t` walk, and when no walk exists it reports both
`path` and `distance` absent.  Moreover the loop returns at the first pop
of `t` (with the tentative distance of `t` at that moment), tolerating
stale heap entries. -/
theorem claim_C2 (g : Graph) (s t : Nat) (st : AlgorithmState)
    (hval : ValidGraph g) (hW1 : 2 * edgeSum g < U32MOD) (hs : s < g.nodeCount) :
    (∃ r, g.dijkstra s t st = some r ∧
      ((∃ c, Walk g s t c ∧ c < U32MAX) →
        ∃ d, r.distance = some d ∧ IsShortestDistance g s t d) ∧
      (¬ Reachable g s t → r.path = none ∧ r.distance = none)) ∧
    (∀ fuel (dist parent : Nat → Nat) (queue : List HeapNode) (pops : Nat)
        (m : HeapNode) (rest : List HeapNode),
      heapPop queue = some (m, rest) → m.id = t →
      dijkstraLoop g s t (g.nodeCount + 1) (fuel + 1) dist parent queue pops =
        some ⟨buildPath parent s (g.nodeCount + 1) t, some (dist t), pops + 1⟩) := by
  constructor
  · obtain ⟨r, hr, hdisj⟩ := dijkstra_spec g s t st hval hW1 hs
    refine ⟨r, hr, ?_, ?_⟩
    · rintro ⟨c, hc, hcM⟩
      rcases hdisj with ⟨d, h1, h2, _⟩ | ⟨_, _, hall⟩
      · exact ⟨d, h1, h2⟩
      · have := hall c hc
        omega
    · intro hnr
      rcases hdisj with ⟨d, _, ⟨hw, _⟩, _⟩ | ⟨h1, h2, _⟩
      · exact absurd ⟨d, hw⟩ hnr
      · exact ⟨h2, h1⟩
  · intro fuel dist parent queue pops m rest hpop hmt
    rw [dijkstraLoop, hpop]
    simp only
    rw [if_pos hmt]

theorem claim_C2_witness :
    ValidGraph G2 ∧ 2 * edgeSum G2 < U32MOD ∧ 0 < G2.nodeCount ∧
    ((∃ r, G2.dijkstra 0 3 (AlgorithmState.new 4) = some r ∧
      ((∃ c, Walk G2 0 3 c ∧ c < U32MAX) →
        ∃ d, r.distance = some d ∧ IsShortestDistance G2 0 3 d) ∧
      (¬ Reachable G2 0 3 → r.path = none ∧ r.distance = none)) ∧
    (∀ fuel (dist parent : Nat → Nat) (queue : List HeapNode) (pops : Nat)
        (m : HeapNode) (rest : List HeapNode),
      heapPop queue = some (m, rest) → m.id = 3 →
      dijkstraLoop G2 0 3 (G2.nodeCount + 1) (fuel + 1) dist parent queue pops =
        some ⟨buildPath parent 0 (G2.nodeCount + 1) 3, some (dist 3), pops + 1⟩)) :=
  ⟨by decide, by decide, by decide,
   claim_C2 G2 0 3 (AlgorithmState.new 4) (by decide) (by decide) (by decide)⟩

/-!
## Claim C9: heap priority order
-/

/-- C9, counterexample: the claim predicts the *smaller* id pops first on a
distance tie; the heap in fact pops the larger id (`⟨id 1, 5⟩` before
`⟨id 0, 5⟩`), refuting the ascending-id tie-break. -/
theorem claim_C9_counterexample :
    ¬ (∀ (q : List HeapNode) (m : HeapNode) (rest : List HeapNode),
        heapPop q = some (m, rest) →
        ∀ x ∈ q, x.distance = m.distance → m.id ≤ x.id) := by
  intro hclaim
  have h1 : heapPop [HeapNode.mk 0 5, HeapNode.mk 1 5] =
      some (HeapNode.mk 1 5, [HeapNode.mk 0 5]) := by decide
  have h2 := hclaim _ _ _ h1 (HeapNode.mk 0 5) (by decide) (by decide)
  simp at h2

/-- C9, amended: among any two entries in the search heap, the one with the
strictly smaller distance is popped first; on equal distances the entry
with the *larger* node id is popped first (descending-id tie-break). -/
theorem claim_C9 (q : List HeapNode) (m : HeapNode) (rest : List HeapNode)
    (hpop : heapPop q = some (m, rest)) :
    ∀ x ∈ q, m.distance ≤ x.distance ∧ (m.distance = x.distance → x.id ≤ m.id) := by
  obtain ⟨_, _, hmin⟩ := heapPop_some hpop
  intro x hx
  rcases hmin x hx with h | ⟨h1, h2⟩
  · refine ⟨Nat.le_of_lt h, fun he => ?_⟩
    omega
  · exact ⟨Nat.le_of_eq h1, fun _ => h2⟩

theorem claim_C9_witness :
    heapPop [HeapNode.mk 0 5, HeapNode.mk 1 5] =
      some (HeapNode.mk 1 5, [HeapNode.mk 0 5]) ∧
    (∀ x ∈ [HeapNode.mk 0 5, HeapNode.mk 1 5],
      (HeapNode.mk 1 5).distance ≤ x.distance ∧
      ((HeapNode.mk 1 5).distance = x.distance → x.id ≤ (HeapNode.mk 1 5).id)) :=
  ⟨by decide, claim_C9 [HeapNode.mk 0 5, HeapNode.mk 1 5] (HeapNode.mk 1 5)
    [HeapNode.mk 0 5] (by decide)⟩

/-!
## Claim C8: the ray-test longitude interval
-/

/-- C8, counterexample: the claim's exception (interval closed at
`hi = +180°`) does not exist in the code: with the edge `(170°, 180°)` and
node longitude exactly `180°` (decimicro-degrees), the candidate test
rejects the edge. -/
theorem claim_C8_counterexample :
    ¬ (∀ flon slon x : Int,
        x = max flon slon → max flon slon = 1800000000 →
        edgeLonCandidate flon slon x = true) := by
  intro hclaim
  have := hclaim 1700000000 1800000000 1800000000 (by decide) (by decide)
  simp [edgeLonCandidate] at this

/-- C8, amended: the edge is a candidate for the meridian ray test exactly
when the node's longitude lies in the half-open interval `[lo, hi)` of the
sorted endpoint longitudes — with no exception at `hi = +180°`. -/
theorem claim_C8 (flon slon x : Int) :
    edgeLonCandidate flon slon x = true ↔
      min flon slon ≤ x ∧ x < max flon slon := by
  rcases le_or_lt flon slon with hfs | hfs
  · simp only [edgeLonCandidate, if_pos hfs, decide_eq_true_eq]
    rw [min_eq_left hfs, max_eq_right hfs]
  · have hsl : slon ≤ flon := le_of_lt hfs
    have hnot : ¬ flon ≤ slon := not_le.mpr hfs
    simp only [edgeLonCandidate, if_neg hnot, decide_eq_true_eq]
    rw [min_eq_right hsl, max_eq_left hsl]

/-!
## Claim C10: search results do not depend on prior scratch-state contents
-/

/-- C10: every search variant first resets the scratch state, overwriting
all distance and parent cells with the unreached sentinel and clearing both
queues, so two runs over the same graph and endpoints with arbitrary prior
state contents of the same node count return identical results. -/
theorem claim_C10 (g : Graph) (s t : Nat) (h : Nat → Nat)
    (st1 st2 : AlgorithmState) (hlen : st1.len = st2.len) :
    g.dijkstra s t st1 = g.dijkstra s t st2 ∧
    g.bi_dijkstra s t st1 = g.bi_dijkstra s t st2 ∧
    g.a_star s t h st1 = g.a_star s t h st2 ∧
    g.shortcut_a_star s t h st1 = g.shortcut_a_star s t h st2 := by
  have hreset : st1.reset = st2.reset := by
    unfold AlgorithmState.reset
    rw [hlen]
  refine ⟨?_, ?_, ?_, ?_⟩
  · unfold Graph.dijkstra
    rw [hreset]
  · unfold Graph.bi_dijkstra
    rw [hreset]
  · unfold Graph.a_star
    rw [hreset]
  · unfold Graph.shortcut_a_star
    rw [hreset]

theorem claim_C10_witness :
    stGarbage.len = (AlgorithmState.new 10).len ∧
    (G5.dijkstra 2 6 stGarbage = G5.dijkstra 2 6 (AlgorithmState.new 10) ∧
     G5.bi_dijkstra 2 6 stGarbage = G5.bi_dijkstra 2 6 (AlgorithmState.new 10) ∧
     G5.a_star 2 6 (fun _ => 0) stGarbage = G5.a_star 2 6 (fun _ => 0) (AlgorithmState.new 10) ∧
     G5.shortcut_a_star 2 6 (fun _ => 0) stGarbage =
       G5.shortcut_a_star 2 6 (fun _ => 0) (AlgorithmState.new 10)) :=
  ⟨rfl, claim_C10 G5 2 6 (fun _ => 0) stGarbage (AlgorithmState.new 10) rfl⟩

/-!
## Claim C6: the coast-assembly loop does not terminate on malformed input
-/

theorem assembleLoop_stuck (cur : Coast) (hne : ¬ cur.first = cur.last) :
    ∀ fuel acc, assembleLoop fuel cur [] acc = none := by
  intro fuel
  induction fuel with
  | zero =>
    intro acc
    rfl
  | succ fuel ih =>
    intro acc
    rw [assembleLoop, if_neg hne]
    simp only [mapLookup, List.find?]
    exact ih acc

/-- C6: the assembly loop does *not* fail with a reported fatal error when
the fragment keyed by the current ring's last coordinate is absent: on the
malformed input consisting of the single non-closed way
`[(0,0), (1,1)]` with no continuation, the loop spins forever (for every
fuel bound the model reports non-termination), instead of aborting. -/
theorem claim_C6 : ∀ fuel, assembleCoasts fuel badWays = none := by
  intro fuel
  have h := assembleLoop_stuck (mkCoast [⟨0, 0⟩, ⟨1, 1⟩]) (by decide) fuel []
  calc assembleCoasts fuel badWays
      = assembleLoop fuel (mkCoast [⟨0, 0⟩, ⟨1, 1⟩]) [] [] := rfl
    _ = none := h

/-!
## Claim C4: nearest-node snapping
-/

theorem selectNearest_eq_selectFold (g : Graph) (d : Nat → Nat) (ids : List Nat) :
    selectNearest g d ids = selectFold g d ids (ids.headD 0, U32MAX) := rfl

theorem selectFold_spec (g : Graph) (d : Nat → Nat) :
    ∀ (l : List Nat) (acc : Nat × Nat),
      (selectFold g d l acc).2 ≤ acc.2 ∧
      (selectFold g d l acc = acc ∨
        ((selectFold g d l acc).1 ∈ l ∧ g.isWater (selectFold g d l acc).1 = true ∧
         (selectFold g d l acc).2 = d (selectFold g d l acc).1 ∧
         (selectFold g d l acc).2 < acc.2)) ∧
      (∀ n ∈ l, g.isWater n = true → (selectFold g d l acc).2 ≤ d n) := by
  intro l
  induction l with
  | nil =>
    intro acc
    exact ⟨le_refl _, Or.inl rfl, fun n hn => absurd hn (List.not_mem_nil n)⟩
  | cons x l ih =>
    intro acc
    by_cases hx : g.isWater x ∧ d x < acc.2
    · have hstep : selectFold g d (x :: l) acc = selectFold g d l (x, d x) := by
        unfold selectFold
        rw [List.foldl_cons, if_pos hx]
      obtain ⟨ha, hb, hc⟩ := ih (x, d x)
      rw [hstep]
      refine ⟨le_trans ha (le_of_lt hx.2), ?_, ?_⟩
      · rcases hb with heq | ⟨h1, h2, h3, h4⟩
        · right
          refine ⟨?_, ?_, ?_, ?_⟩
          · rw [heq]
            exact List.mem_cons_self x l
          · rw [heq]
            simpa using hx.1
          · rw [heq]
          · rw [heq]
            exact hx.2
        · exact Or.inr ⟨List.mem_cons_of_mem x h1, h2, h3, lt_trans h4 hx.2⟩
      · intro n hn hw
        rcases List.mem_cons.mp hn with rfl | hn'
        · exact ha
        · exact hc n hn' hw
    · have hstep : selectFold g d (x :: l) acc = selectFold g d l acc := by
        unfold selectFold
        rw [List.foldl_cons, if_neg hx]
      obtain ⟨ha, hb, hc⟩ := ih acc
      rw [hstep]
      refine ⟨ha, ?_, ?_⟩
      · rcases hb with heq | ⟨h1, h2, h3, h4⟩
        · exact Or.inl heq
        · exact Or.inr ⟨List.mem_cons_of_mem x h1, h2, h3, h4⟩
      · intro n hn hw
        rcases List.mem_cons.mp hn with rfl | hn'
        · have hnlt : ¬ d n < acc.2 := fun hlt => hx ⟨by simpa using hw, hlt⟩
          exact le_trans ha (not_lt.mp hnlt)
        · exact hc n hn' hw

/-- C4: `find_nearest_node` considers exactly the four bracketing raster
cells (`neighborIds`, with modular wrap-around), returns `none` precisely
when none of the four is water, and otherwise returns a water cell of the
four at minimum great-circle distance.  The hypothesis `hd` reflects that
great-circle distances on Earth (in metres) are far below the `u32::MAX`
sentinel. -/
theorem claim_C4 (g : Graph) (d : Nat → Nat) (lonIdxLeft latIdxTop : Nat)
    (ids : List Nat)
    (hids : ids = neighborIds g.raster_columns_count g.raster_rows_count lonIdxLeft latIdxTop)
    (hd : ∀ n ∈ ids, d n < U32MAX) :
    (findNearestNodeFrom g d lonIdxLeft latIdxTop = none ↔
      ∀ n ∈ ids, g.isWater n = false) ∧
    (∀ m, findNearestNodeFrom g d lonIdxLeft latIdxTop = some m →
      m ∈ ids ∧ g.isWater m = true ∧ ∀ n ∈ ids, g.isWater n = true → d m ≤ d n) := by
  have hfn : findNearestNodeFrom g d lonIdxLeft latIdxTop =
      (if (selectFold g d ids (ids.headD 0, U32MAX)).2 = U32MAX then none
       else some (selectFold g d ids (ids.headD 0, U32MAX)).1) := by
    rw [hids]
    rfl
  obtain ⟨ha, hb, hc⟩ := selectFold_spec g d ids (ids.headD 0, U32MAX)
  constructor
  · constructor
    · intro hnone n hn
      rw [hfn] at hnone
      by_cases hmax : (selectFold g d ids (ids.headD 0, U32MAX)).2 = U32MAX
      · by_contra hw
        have hw' : g.isWater n = true := by
          cases h : g.isWater n
          · exact absurd h hw
          · rfl
        have := hc n hn hw'
        have := hd n hn
        omega
      · rw [if_neg hmax] at hnone
        exact absurd hnone (Option.some_ne_none _)
    · intro hall
      rw [hfn]
      have hmax : (selectFold g d ids (ids.headD 0, U32MAX)).2 = U32MAX := by
        rcases hb with heq | ⟨h1, h2, _, _⟩
        · rw [heq]
        · rw [hall _ h1] at h2
          exact absurd h2 (by simp)
      rw [if_pos hmax]
  · intro m hm
    rw [hfn] at hm
    by_cases hmax : (selectFold g d ids (ids.headD 0, U32MAX)).2 = U32MAX
    · rw [if_pos hmax] at hm
      exact absurd hm (by simp)
    · rw [if_neg hmax] at hm
      have hm1 : (selectFold g d ids (ids.headD 0, U32MAX)).1 = m := Option.some.inj hm
      rcases hb with heq | ⟨h1, h2, h3, _⟩
      · rw [heq] at hmax
        exact absurd rfl hmax
      · rw [hm1] at h1 h2 h3
        refine ⟨h1, h2, ?_⟩
        intro n hn hw
        have := hc n hn hw
        omega

theorem claim_C4_witness :
    ([0, 1, 2, 3] = neighborIds G5.raster_columns_count G5.raster_rows_count 0 0 ∧
     ∀ n ∈ [0, 1, 2, 3], n + 1 < U32MAX) ∧
    ((findNearestNodeFrom G5 (fun n => n + 1) 0 0 = none ↔
       ∀ n ∈ [0, 1, 2, 3], G5.isWater n = false) ∧
     (∀ m, findNearestNodeFrom G5 (fun n => n + 1) 0 0 = some m →
       m ∈ [0, 1, 2, 3] ∧ G5.isWater m = true ∧
       ∀ n ∈ [0, 1, 2, 3], G5.isWater n = true → (fun n => n + 1) m ≤ (fun n => n + 1) n)) :=
  ⟨⟨by decide, by decide⟩,
   claim_C4 G5 (fun n => n + 1) 0 0 [0, 1, 2, 3] (by decide) (by decide)⟩

/-!
## Claim C3: the antimeridian split of the returned polyline
-/

theorem splitSegment_head (coords : List (ℚ × ℚ)) (lineStart : Nat) (lonStart : ℚ)
    (stop : Nat) (h : 0 < lineStart) :
    (splitSegment coords lineStart lonStart stop).head? =
      some (lonStart, (coords.getD lineStart (0, 0)).2) := by
  unfold splitSegment
  rw [if_pos h]
  rfl

theorem pairOk_append (acc : List (List (ℚ × ℚ))) (seg : List (ℚ × ℚ))
    (lineStart : Nat) (lonStart : ℚ)
    (hinv : SplitInv acc lineStart lonStart)
    (hhead : 0 < lineStart → ∃ lat, seg.head? = some (lonStart, lat)) :
    PairOk (acc ++ [seg]) := by
  obtain ⟨hpo, hzero, hpos⟩ := hinv
  rcases Nat.eq_zero_or_pos lineStart with h0 | hls
  · rw [hzero h0]
    intro k hk
    simp at hk
  · intro k hk
    rw [List.length_append, List.length_singleton] at hk
    have hk' : k < acc.length := by omega
    rcases Nat.lt_or_ge (k + 1) acc.length with hin | hjun
    · rw [List.getD_append _ _ _ _ hk', List.getD_append _ _ _ _ hin]
      exact hpo k hin
    · have hkk : k + 1 = acc.length := by omega
      obtain ⟨hlon, lat, hlast⟩ := hpos hls
      obtain ⟨lat2, hh⟩ := hhead hls
      refine ⟨-lonStart, lat, lat2, ?_, ?_, ?_⟩
      · rcases hlon with h | h
        · right
          rw [h]
        · left
          rw [h]
          norm_num
      · rw [List.getD_append _ _ _ _ hk']
        have hke : k = acc.length - 1 := by omega
        rw [hke]
        exact hlast
      · have hgd : (acc ++ [seg]).getD (k + 1) [] = seg := by
          rw [hkk, List.getD_append_right _ _ _ _ (le_refl _), Nat.sub_self]
          rfl
        rw [hgd, neg_neg]
        exact hh

theorem splitLoop_length (coords : List (ℚ × ℚ)) :
    ∀ (steps i lineStart : Nat) (lonStart : ℚ) (acc : List (List (ℚ × ℚ))),
      (splitLoop coords steps lineStart i lonStart acc).length =
        acc.length + 1 +
        ((List.range' i steps).filter (fun k => decide (jumpAt coords k))).length := by
  intro steps
  induction steps with
  | zero =>
    intro i lineStart lonStart acc
    rw [splitLoop]
    simp
  | succ steps ih =>
    intro i lineStart lonStart acc
    rw [splitLoop, List.range'_succ]
    by_cases h : jumpAt coords i
    · rw [if_pos h]
      dsimp only
      rw [ih, List.length_append]
      have hd : decide (jumpAt coords i) = true := decide_eq_true h
      simp only [List.filter_cons, hd, if_true, List.length_cons, List.length_singleton,
        List.length_nil]
      omega
    · rw [if_neg h]
      rw [ih]
      have hd : decide (jumpAt coords i) = false := decide_eq_false h
      simp only [List.filter_cons, hd, Bool.false_eq_true, if_false]

theorem splitLoop_pairOk (coords : List (ℚ × ℚ)) :
    ∀ (steps i lineStart : Nat) (lonStart : ℚ) (acc : List (List (ℚ × ℚ))),
      1 ≤ i → SplitInv acc lineStart lonStart →
      PairOk (splitLoop coords steps lineStart i lonStart acc) := by
  intro steps
  induction steps with
  | zero =>
    intro i lineStart lonStart acc hi hinv
    rw [splitLoop]
    exact pairOk_append acc _ lineStart lonStart hinv
      (fun hls => ⟨_, splitSegment_head coords lineStart lonStart coords.length hls⟩)
  | succ steps ih =>
    intro i lineStart lonStart acc hi hinv
    rw [splitLoop]
    by_cases h : jumpAt coords i
    · rw [if_pos h]
      dsimp only
      refine ih _ _ _ _ (by omega) ?_
      refine ⟨?_, ?_, ?_⟩
      · refine pairOk_append acc _ lineStart lonStart hinv (fun hls => ?_)
        refine ⟨(coords.getD lineStart (0, 0)).2, ?_⟩
        unfold splitSegment
        rw [if_pos hls]
        rfl
      · intro h0
        omega
      · intro _
        constructor
        · by_cases hs : (coords.getD (i - 1) (0, 0)).1 < 0
          · rw [if_pos hs]
            left
            norm_num
          · rw [if_neg hs]
            right
            norm_num
        · refine ⟨(coords.getD (i - 1) (0, 0)).2, ?_⟩
          have hgd : ∀ line : List (ℚ × ℚ),
              (acc ++ [line]).getD ((acc ++ [line]).length - 1) [] = line := by
            intro line
            rw [List.length_append, List.length_singleton]
            have hae : acc.length + 1 - 1 = acc.length := by omega
            rw [hae, List.getD_append_right _ _ _ _ (le_refl _), Nat.sub_self]
            rfl
          rw [hgd, List.getLast?_concat, neg_neg]
    · rw [if_neg h]
      exact ih _ _ _ _ (by omega) hinv

/-- C3, counterexample: two clauses of the claim fail on the code.  On a
polyline whose endpoints lie on opposite sides of the antimeridian but
which travels the long way round (`exAround`), no break occurs and a single
`LineString` is emitted.  And on `exWide` the point preceding the jump is
dropped and replaced by the synthetic `±180` point, so the first emitted
`LineString` contains the consecutive pair `(-10, ·), (180, ·)` with
`|Δlon| = 190 > 180`. -/
theorem claim_C3_counterexample :
    (splitLines exAround = [[(-179, 0), (0, 0), (179, 0)]] ∧
      (-179 : ℚ) < 0 ∧ (0 : ℚ) < 179) ∧
    ¬ (∀ f ∈ splitLines exWide, ∀ k, k + 1 < f.length →
        |(f.getD k (0, 0)).1 - (f.getD (k + 1) (0, 0)).1| ≤ 180) := by
  refine ⟨⟨?_, by norm_num, by norm_num⟩, ?_⟩
  · norm_num [splitLines, splitLoop, splitSegment, exAround, jumpAt]
  · intro hclaim
    have hw : splitLines exWide = [[(-10, 0), (180, 0)], [(-180, 0), (-171, 0)]] := by
      norm_num [splitLines, splitLoop, splitSegment, exWide, jumpAt]
    have hmem : [((-10 : ℚ), (0 : ℚ)), (180, 0)] ∈ splitLines exWide := by
      rw [hw]
      exact List.mem_cons_self _ _
    have hk := hclaim _ hmem 0 (by norm_num)
    norm_num [List.getD] at hk

/-- C3, amended: the split loop emits `1 + #jumps` LineStrings, where a
jump is a consecutive pair of the composed polyline with `|Δlon| > 180°`
(so at least two LineStrings exactly when some jump occurs — endpoints on
opposite sides of the antimeridian alone do not force a split); consecutive
LineStrings are joined by a synthetic point at `±180°` ending the earlier
one and a synthetic point at `∓180°` starting the later one; and each break
at a jump between points `i-1` and `i` emits the slice `[lineStart, i-1)`
— dropping point `i-1` itself — terminated by the synthetic point at the
departing side's `±180°` with point `i-1`'s latitude, the next segment
starting at the opposite sign.  An emitted LineString may itself still
contain a consecutive pair with `|Δlon| > 180°`. -/
theorem claim_C3 (coords : List (ℚ × ℚ)) :
    (splitLines coords).length = 1 + countJumps coords ∧
    ((∃ i, 0 < i ∧ i < coords.length ∧ jumpAt coords i) →
      2 ≤ (splitLines coords).length) ∧
    PairOk (splitLines coords) ∧
    (∀ (steps i lineStart : Nat) (lonStart : ℚ) (acc : List (List (ℚ × ℚ))),
      jumpAt coords i →
      splitLoop coords (steps + 1) lineStart i lonStart acc =
        splitLoop coords steps i (i + 1)
          (-(if (coords.getD (i - 1) (0, 0)).1 < 0 then (-180 : ℚ) else 180))
          (acc ++ [splitSegment coords lineStart lonStart (i - 1) ++
            [((if (coords.getD (i - 1) (0, 0)).1 < 0 then (-180 : ℚ) else 180),
              (coords.getD (i - 1) (0, 0)).2)]])) := by
  have hlen : (splitLines coords).length = 1 + countJumps coords := by
    unfold splitLines countJumps
    rw [splitLoop_length]
    simp
  refine ⟨hlen, ?_, ?_, ?_⟩
  · rintro ⟨i, hi0, hilen, hj⟩
    have hmem : i ∈ List.range' 1 (coords.length - 1) := by
      rw [List.mem_range'_1]
      omega
    have hfil : i ∈ (List.range' 1 (coords.length - 1)).filter
        (fun k => decide (jumpAt coords k)) :=
      List.mem_filter.mpr ⟨hmem, decide_eq_true hj⟩
    have hpos : 0 < countJumps coords := by
      unfold countJumps
      exact List.length_pos.mpr (List.ne_nil_of_mem hfil)
    omega
  · unfold splitLines
    refine splitLoop_pairOk coords _ 1 0 0 [] (le_refl 1) ⟨?_, fun _ => rfl, ?_⟩
    · intro k hk
      simp at hk
    · intro h
      exact absurd h (lt_irrefl 0)
  · intro steps i lineStart lonStart acc hj
    rw [splitLoop, if_pos hj]

theorem claim_C3_witness :
    (0 < 2 ∧ 2 < exWide.length ∧ jumpAt exWide 2) ∧
    2 ≤ (splitLines exWide).length :=
  ⟨⟨by norm_num, by norm_num [exWide], by norm_num [jumpAt, exWide]⟩,
   (claim_C3 exWide).2.1
     ⟨2, by norm_num, by norm_num [exWide], by norm_num [jumpAt, exWide]⟩⟩

/-!
## Claim C5: shortcut edges of the overlay builder
-/

theorem sumTo_succ (adj : Nat → List Edge) (i : Nat) :
    sumTo adj (i + 1) = sumTo adj i + (adj i).length := by
  unfold sumTo
  rw [List.range_succ, List.map_append, List.foldl_append]
  rfl

theorem flatMap_range_succ (adj : Nat → List Edge) (u : Nat) :
    (List.range (u + 1)).flatMap adj = (List.range u).flatMap adj ++ adj u := by
  rw [List.range_succ, List.flatMap_append]
  simp

theorem length_flatMap_range (adj : Nat → List Edge) :
    ∀ u, ((List.range u).flatMap adj).length = sumTo adj u := by
  intro u
  induction u with
  | zero => rfl
  | succ u ih => rw [flatMap_range_succ, List.length_append, ih, sumTo_succ]

theorem flatMap_range_getD (adj : Nat → List Edge) (n u : Nat) (hu : u < n)
    (j : Nat) (hj : j < (adj u).length) :
    ((List.range n).flatMap adj).getD (sumTo adj u + j) (Edge.mk 0 0) =
      (adj u).getD j (Edge.mk 0 0) := by
  obtain ⟨m, rfl⟩ : ∃ m, n = (u + 1) + m := ⟨n - (u + 1), by omega⟩
  rw [List.range_add, List.flatMap_append]
  have hlen : sumTo adj u + j < ((List.range (u + 1)).flatMap adj).length := by
    rw [length_flatMap_range, sumTo_succ]
    omega
  rw [List.getD_append _ _ _ _ hlen, flatMap_range_succ]
  have hge : ((List.range u).flatMap adj).length ≤ sumTo adj u + j := by
    rw [length_flatMap_range]
    omega
  rw [List.getD_append_right _ _ _ _ hge, length_flatMap_range]
  congr 1
  omega

theorem rebuild_offAt (adj : Nat → List Edge) (n cc rc : Nat)
    (rects : List (Nat × Nat × Nat × Nat)) (i : Nat) (hi : i < n + 1) :
    Graph.offAt
      { offsets := (List.range (n + 1)).map (fun k => (sumTo adj k, (none : Option Nat))),
        edges := (List.range n).flatMap adj,
        raster_columns_count := cc, raster_rows_count := rc,
        shortcut_rectangles := rects } i = sumTo adj i := by
  unfold Graph.offAt
  have hlen : i < ((List.range (n + 1)).map
      (fun k => (sumTo adj k, (none : Option Nat)))).length := by
    simpa using hi
  rw [List.getD_eq_getElem _ _ hlen]
  simp

theorem rebuild_outEdges (adj : Nat → List Edge) (n cc rc : Nat)
    (rects : List (Nat × Nat × Nat × Nat)) (u : Nat) (hu : u < n) :
    Graph.outEdges
      { offsets := (List.range (n + 1)).map (fun k => (sumTo adj k, (none : Option Nat))),
        edges := (List.range n).flatMap adj,
        raster_columns_count := cc, raster_rows_count := rc,
        shortcut_rectangles := rects } u = adj u := by
  unfold Graph.outEdges
  rw [rebuild_offAt adj n cc rc rects u (by omega),
    rebuild_offAt adj n cc rc rects (u + 1) (by omega), sumTo_succ]
  have hdiff : sumTo adj u + (adj u).length - sumTo adj u = (adj u).length := by omega
  rw [hdiff]
  apply List.ext_getElem
  · simp
  · intro i h1 h2
    simp only [List.getElem_map, List.getElem_range']
    have hi : i < (adj u).length := by simpa using h2
    rw [show sumTo adj u + 1 * i = sumTo adj u + i by omega]
    rw [flatMap_range_getD adj n u hu i hi]
    exact List.getD_eq_getElem _ _ hi

theorem createGraph_outEdges (g : Graph) (rects : List (Nat × Nat × Nat × Nat))
    (adj : Nat → List Edge) (hadj : overlayAdjacency g rects = some adj)
    (G' : Graph) (hG : createGraph g rects = some G')
    (u : Nat) (hu : u < g.raster_rows_count * g.raster_columns_count) :
    G'.outEdges u = adj u := by
  unfold createGraph at hG
  rw [hadj] at hG
  dsimp only [rebuildCSR] at hG
  obtain rfl := Option.some.inj hG
  exact rebuild_outEdges adj (g.raster_rows_count * g.raster_columns_count)
    g.raster_columns_count g.raster_rows_count rects u hu

theorem addEdges_spec (g : Graph) (edges : Nat → List Edge) (p : Nat × Nat)
    (edges' : Nat → List Edge) (h : addEdges g edges p = some edges') :
    (∀ i, ∃ l, edges' i = edges i ++ l) ∧
    ∃ d, (∃ r, g.bi_dijkstra p.1 p.2
          (AlgorithmState.new (g.raster_rows_count * g.raster_columns_count)) = some r ∧
        r.distance = some d) ∧
      Edge.mk p.2 d ∈ edges' p.1 ∧ Edge.mk p.1 d ∈ edges' p.2 := by
  unfold addEdges at h
  rcases hbi : g.bi_dijkstra p.1 p.2
      (AlgorithmState.new (g.raster_rows_count * g.raster_columns_count)) with _ | r
  · rw [hbi] at h
    exact absurd h (by simp)
  · rw [hbi] at h
    dsimp only at h
    rcases hd : r.distance with _ | d
    · rw [hd] at h
      exact absurd h (by simp)
    · rw [hd] at h
      dsimp only at h
      have he : edges' = fun i =>
          let withFirst := if i = p.1 then edges i ++ [⟨p.2, d⟩] else edges i
          if i = p.2 then withFirst ++ [⟨p.1, d⟩] else withFirst :=
        (Option.some.inj h).symm
      constructor
      · intro i
        rw [he]
        dsimp only
        by_cases h1 : i = p.1
        · by_cases h2 : i = p.2
          · exact ⟨[⟨p.2, d⟩] ++ [⟨p.1, d⟩],
              by rw [if_pos h2, if_pos h1, List.append_assoc]⟩
          · exact ⟨[⟨p.2, d⟩], by rw [if_neg h2, if_pos h1]⟩
        · by_cases h2 : i = p.2
          · exact ⟨[⟨p.1, d⟩], by rw [if_pos h2, if_neg h1]⟩
          · exact ⟨[], by rw [if_neg h2, if_neg h1, List.append_nil]⟩
      · refine ⟨d, ⟨r, rfl, hd⟩, ?_, ?_⟩
        · rw [he]
          dsimp only
          by_cases h2 : p.1 = p.2
          · rw [if_pos h2, if_pos rfl]
            exact List.mem_append_left _
              (List.mem_append_right _ (List.mem_singleton.mpr rfl))
          · rw [if_neg h2, if_pos rfl]
            exact List.mem_append_right _ (List.mem_singleton.mpr rfl)
        · rw [he]
          dsimp only
          rw [if_pos rfl]
          exact List.mem_append_right _ (List.mem_singleton.mpr rfl)

theorem addEdgesAll_spec (g : Graph) :
    ∀ (ps : List (Nat × Nat)) (edges edges' : Nat → List Edge),
      addEdgesAll g ps edges = some edges' →
      (∀ i, ∃ l, edges' i = edges i ++ l) ∧
      ∀ p ∈ ps, ∃ d,
        (∃ r, g.bi_dijkstra p.1 p.2
            (AlgorithmState.new (g.raster_rows_count * g.raster_columns_count)) = some r ∧
          r.distance = some d) ∧
        Edge.mk p.2 d ∈ edges' p.1 ∧ Edge.mk p.1 d ∈ edges' p.2 := by
  intro ps
  induction ps with
  | nil =>
    intro edges edges' h
    rw [addEdgesAll] at h
    obtain rfl := Option.some.inj h
    exact ⟨fun i => ⟨[], (List.append_nil _).symm⟩,
      fun p hp => absurd hp (List.not_mem_nil p)⟩
  | cons q ps ih =>
    intro edges edges' h
    rw [addEdgesAll] at h
    rcases ha : addEdges g edges q with _ | edges1
    · rw [ha] at h
      exact absurd h (by simp)
    · rw [ha] at h
      dsimp only at h
      obtain ⟨hmono1, hq⟩ := addEdges_spec g edges q edges1 ha
      obtain ⟨hmono2, hps⟩ := ih edges1 edges' h
      constructor
      · intro i
        obtain ⟨l1, h1⟩ := hmono1 i
        obtain ⟨l2, h2⟩ := hmono2 i
        exact ⟨l1 ++ l2, by rw [h2, h1, List.append_assoc]⟩
      · intro p hp
        rcases List.mem_cons.mp hp with heq | hp'
        · subst heq
          obtain ⟨d, hbi, hm1, hm2⟩ := hq
          obtain ⟨l1, h1⟩ := hmono2 p.1
          obtain ⟨l2, h2⟩ := hmono2 p.2
          exact ⟨d, hbi, by rw [h1]; exact List.mem_append_left _ hm1,
            by rw [h2]; exact List.mem_append_left _ hm2⟩
        · exact hps p hp'

theorem overlayFold_none (g : Graph) :
    ∀ rects : List (Nat × Nat × Nat × Nat),
      rects.foldl (fun acc rect => match acc with
        | none => none
        | some edges => addEdgesAll g (rectPairs g rect) edges) none = none := by
  intro rects
  induction rects with
  | nil => rfl
  | cons r rs ih =>
    rw [List.foldl_cons]
    exact ih

theorem overlayFold_spec (g : Graph) :
    ∀ (rects : List (Nat × Nat × Nat × Nat)) (edges0 adj : Nat → List Edge),
      rects.foldl (fun acc rect => match acc with
        | none => none
        | some edges => addEdgesAll g (rectPairs g rect) edges) (some edges0) = some adj →
      (∀ i, ∃ l, adj i = edges0 i ++ l) ∧
      ∀ rect ∈ rects, ∀ p ∈ rectPairs g rect, ∃ d,
        (∃ r, g.bi_dijkstra p.1 p.2
            (AlgorithmState.new (g.raster_rows_count * g.raster_columns_count)) = some r ∧
          r.distance = some d) ∧
        Edge.mk p.2 d ∈ adj p.1 ∧ Edge.mk p.1 d ∈ adj p.2 := by
  intro rects
  induction rects with
  | nil =>
    intro edges0 adj h
    obtain rfl := Option.some.inj h
    exact ⟨fun i => ⟨[], (List.append_nil _).symm⟩,
      fun rect hr => absurd hr (List.not_mem_nil rect)⟩
  | cons rc rcs ih =>
    intro edges0 adj h
    rw [List.foldl_cons] at h
    dsimp only at h
    rcases ha : addEdgesAll g (rectPairs g rc) edges0 with _ | edges1
    · rw [ha] at h
      rw [overlayFold_none] at h
      exact absurd h (by simp)
    · rw [ha] at h
      obtain ⟨hm1, hrc⟩ := addEdgesAll_spec g (rectPairs g rc) edges0 edges1 ha
      obtain ⟨hm2, hrest⟩ := ih edges1 adj h
      constructor
      · intro i
        obtain ⟨l1, h1⟩ := hm1 i
        obtain ⟨l2, h2⟩ := hm2 i
        exact ⟨l1 ++ l2, by rw [h2, h1, List.append_assoc]⟩
      · intro rect hr p hp
        rcases List.mem_cons.mp hr with heq | hr'
        · subst heq
          obtain ⟨d, hbi, hmp1, hmp2⟩ := hrc p hp
          obtain ⟨l1, h1⟩ := hm2 p.1
          obtain ⟨l2, h2⟩ := hm2 p.2
          exact ⟨d, hbi, by rw [h1]; exact List.mem_append_left _ hmp1,
            by rw [h2]; exact List.mem_append_left _ hmp2⟩
        · exact hrest rect hr' p hp

/-- C5, counterexample: over the 2 × 5 raster of `G5` with the rectangle
`(left, top, right, bottom) = (0, 0, 1, 4)`, cells `2` and `6` are distinct
non-corner cells of the left border column with a water path of length 10
between them; the overlay graph that `createGraph` produces stores no edge
between them in either adjacency list, refuting the claim of an edge between
every pair of distinct border cells. -/
theorem claim_C5_counterexample :
    createGraph G5 [(0, 0, 1, 4)] = some G5overlay ∧
    2 = getIndex G5 0 1 ∧ 6 = getIndex G5 0 3 ∧ (2 : Nat) ≠ 6 ∧
    (∃ r, G5.bi_dijkstra 2 6 (AlgorithmState.new 10) = some r ∧
      r.distance = some 10) ∧
    (∀ e ∈ G5overlay.outEdges 2, e.destination ≠ 6) ∧
    (∀ e ∈ G5overlay.outEdges 6, e.destination ≠ 2) := by
  refine ⟨rfl, rfl, rfl, by decide, ⟨_, rfl, by decide⟩, by decide, by decide⟩

/-- C5, amended: for every rectangle handed to the overlay builder and
every pair generated by its five nested border loops (`rectPairs`: all
cross-side pairs — left×top, left×right, left×bottom, top×right,
top×bottom, right×bottom — including the coincident corner self-pairs,
but *not* pairs of distinct cells lying on the same side), the output
graph stores an edge in both endpoints' adjacency lists whose weight is
the distance computed by bidirectional Dijkstra on the base graph. -/
theorem claim_C5 (g : Graph) (rects : List (Nat × Nat × Nat × Nat)) (G' : Graph)
    (hG : createGraph g rects = some G')
    (rect : Nat × Nat × Nat × Nat) (hrect : rect ∈ rects)
    (p : Nat × Nat) (hp : p ∈ rectPairs g rect)
    (hp1 : p.1 < g.raster_rows_count * g.raster_columns_count)
    (hp2 : p.2 < g.raster_rows_count * g.raster_columns_count) :
    ∃ d, (∃ r, g.bi_dijkstra p.1 p.2
          (AlgorithmState.new (g.raster_rows_count * g.raster_columns_count)) = some r ∧
        r.distance = some d) ∧
      Edge.mk p.2 d ∈ G'.outEdges p.1 ∧ Edge.mk p.1 d ∈ G'.outEdges p.2 := by
  rcases hadj : overlayAdjacency g rects with _ | adj
  · unfold createGraph at hG
    rw [hadj] at hG
    exact absurd hG (by simp)
  · have hout1 := createGraph_outEdges g rects adj hadj G' hG p.1 hp1
    have hout2 := createGraph_outEdges g rects adj hadj G' hG p.2 hp2
    have hspec := (overlayFold_spec g rects (fun i => g.outEdges i) adj hadj).2 rect hrect p hp
    obtain ⟨d, hbi, hm1, hm2⟩ := hspec
    exact ⟨d, hbi, by rw [hout1]; exact hm1, by rw [hout2]; exact hm2⟩

theorem claim_C5_witness :
    (createGraph Gpair [(0, 0, 1, 0)] = some GpairOverlay ∧
     ((0, 1) : Nat × Nat) ∈ rectPairs Gpair (0, 0, 1, 0) ∧
     (0 : Nat) < Gpair.raster_rows_count * Gpair.raster_columns_count ∧
     (1 : Nat) < Gpair.raster_rows_count * Gpair.raster_columns_count) ∧
    ∃ d, (∃ r, Gpair.bi_dijkstra 0 1
          (AlgorithmState.new (Gpair.raster_rows_count * Gpair.raster_columns_count)) = some r ∧
        r.distance = some d) ∧
      Edge.mk 1 d ∈ GpairOverlay.outEdges 0 ∧ Edge.mk 0 d ∈ GpairOverlay.outEdges 1 :=
  ⟨⟨rfl, by decide, by decide, by decide⟩,
   claim_C5 Gpair [(0, 0, 1, 0)] GpairOverlay rfl (0, 0, 1, 0)
     (List.mem_singleton.mpr rfl) (0, 1) (by decide) (by decide) (by decide)⟩

/-!
## Claim C7: ring extents are not updated during merging
-/

/-- C7: the assembled ring from the two fragments of `exWays` is closed
(first = last), but its stored extent is the *first fragment's* extent:
`rightmost = 5` even though the ring contains a vertex at longitude `9`.
The stored leftmost/rightmost therefore do not cover all of the ring's
vertices, contradicting the claim (and the spec's guarantee). -/
theorem claim_C7 :
    assembleCoasts 10 exWays =
      some [⟨[⟨0, 0⟩, ⟨5, 1⟩, ⟨5, 1⟩, ⟨9, 2⟩, ⟨0, 0⟩], 0, 5⟩] ∧
    (⟨9, 2⟩ : Coordinate) ∈ [⟨(0 : Int), (0 : Int)⟩, ⟨5, 1⟩, ⟨5, 1⟩, ⟨9, 2⟩, ⟨0, 0⟩] ∧
    (5 : Int) < 9 ∧
    (Coast.first ⟨[⟨0, 0⟩, ⟨5, 1⟩, ⟨5, 1⟩, ⟨9, 2⟩, ⟨0, 0⟩], 0, 5⟩ =
     Coast.last ⟨[⟨0, 0⟩, ⟨5, 1⟩, ⟨5, 1⟩, ⟨9, 2⟩, ⟨0, 0⟩], 0, 5⟩) := by
  refine ⟨by decide, by decide, by decide, by decide⟩

end ShipRouting
